import Mathlib

/-!
Verification of the `pdf_scrapper` repository: a shallow embedding in Lean 4 of
the manifest ledger (`src/storage/manifest.py`), the Elasticsearch indexer
(`src/elasticsearch_index/es_index.py`), the crawler (`src/crawler/crawler.py`)
and the orchestrating Flask handler (`src/app.py`), together with theorems
settling the frozen claims about the program.

Conventions of the embedding:
* Python dicts holding a document record are modelled by the structure `Rec`;
  a key that is absent (or present with value `None`, which every relevant
  code path treats identically via `.get`) is an `Option` that is `none`.
* The manifest file on disk is modelled by `FileState`; reading/writing it is
  explicit state passing.  Python exceptions that escape a function are
  modelled with `Except PyErr`.
* `datetime.utcnow()` is passed in as an explicit `now : String` argument.
* Network and filesystem effects are parameters: the page fetch outcome per
  attempt, the downloader, the on-disk PDF files with their SHA-256 hashes,
  and the text extractor are all functions supplied to the model.
-/

/-- `_STATUS_PRIORITY.get(s, 0)` of `src/storage/manifest.py`:
`indexed`/`duplicate`/`no_text`/`not_indexed`/`unknown` map to
40/30/20/10/0 and any other string defaults to 0. -/
def statusPriority (s : String) : Nat :=
  if s = "indexed" then 40
  else if s = "duplicate" then 30
  else if s = "no_text" then 20
  else if s = "not_indexed" then 10
  else 0

/-- Python `str(x or "unknown")` applied to an optional status value:
a missing value or the empty string (both falsy) become `"unknown"`. -/
def normStatus : Option String → String
  | none => "unknown"
  | some s => if s = "" then "unknown" else s

/-- A manifest document record: the Python dict with the keys that
`storage/manifest.py` and `elasticsearch_index/es_index.py` read and write.
`none` models an absent key. -/
structure Rec where
  name : Option String
  path : Option String
  url : Option String
  source_page : Option String
  downloaded_at : Option String
  size : Option Int
  sha256 : Option String
  id : Option String
  status : Option String
  indexed : Option Bool
deriving DecidableEq, Repr

/-- The empty dict `{}` used as `by_hash.get(sha, {})` in `update_manifest`. -/
def emptyRec : Rec :=
  ⟨none, none, none, none, none, none, none, none, none, none⟩

/-- The per-field copy of `_merge_record`: the incoming value overwrites the
existing one whenever it is present (`if value is not None`). -/
def pick (new old : Option α) : Option α :=
  match new with
  | some v => some v
  | none => old

/-- `_merge_record` of `src/storage/manifest.py` (lines 113-143): copy the
descriptive fields that are present in `nd`, replace `status` only when the
incoming priority is `>=` the current one, and make `indexed` the logical OR
of old and new (defaulting to `status == "indexed"` when never set). -/
def mergeRecord (existing nd : Rec) : Rec :=
  let merged : Rec :=
    { existing with
      name := pick nd.name existing.name
      path := pick nd.path existing.path
      url := pick nd.url existing.url
      source_page := pick nd.source_page existing.source_page
      downloaded_at := pick nd.downloaded_at existing.downloaded_at
      size := pick nd.size existing.size
      sha256 := pick nd.sha256 existing.sha256
      id := pick nd.id existing.id }
  let new_status := normStatus nd.status
  let current_status := normStatus merged.status
  let merged :=
    if statusPriority current_status ≤ statusPriority new_status then
      { merged with status := some new_status }
    else merged
  match nd.indexed with
  | some b => { merged with indexed := some (b || merged.indexed.getD false) }
  | none =>
    match merged.indexed with
    | some _ => merged
    | none => { merged with indexed := some (merged.status = some "indexed") }

/-- The `setdefault` pass of `load_manifest` (lines 50-52): default `status`
to `"unknown"` and `indexed` to `status == "indexed"` when absent. -/
def loadFix (d : Rec) : Rec :=
  let d1 : Rec := { d with status := some (match d.status with
    | none => "unknown"
    | some s => s) }
  match d1.indexed with
  | some _ => d1
  | none => { d1 with indexed := some (d1.status = some "indexed") }

/-- Python truthiness of an optional string: `none` and `""` are falsy. -/
def truthyStr : Option String → Option String
  | none => none
  | some s => if s = "" then none else some s

/-- The manifest key of a record: `doc.get("sha256") or doc.get("id")`,
yielding `none` when both are falsy (such records are skipped). -/
def keyOf (d : Rec) : Option String :=
  match truthyStr d.sha256 with
  | some s => some s
  | none => truthyStr d.id

/-- Lookup in an insertion-ordered association list (a Python dict). -/
def assocGet (m : List (String × Rec)) (k : String) : Option Rec :=
  match m with
  | [] => none
  | (k', v) :: rest => if k' = k then some v else assocGet rest k

/-- `d[k] = v` on a Python dict: replace in place when the key exists
(keeping its position), otherwise append at the end. -/
def assocSet (m : List (String × Rec)) (k : String) (v : Rec) :
    List (String × Rec) :=
  match m with
  | [] => [(k, v)]
  | (k', v') :: rest =>
    if k' = k then (k, v) :: rest else (k', v') :: assocSet rest k v

/-- The dict comprehension of `update_manifest` (lines 66-70): key every
existing document by `sha256 or id`, skipping records with no truthy key. -/
def buildByHash (docs : List Rec) : List (String × Rec) :=
  docs.foldl (fun acc d =>
    match keyOf d with
    | none => acc
    | some k => assocSet acc k d) []

/-- The record-merge loop of `update_manifest` (lines 72-82): merge each
incoming record into the map and track whether anything changed. -/
def applyRecords (byHash : List (String × Rec)) (records : List Rec) :
    List (String × Rec) × Bool :=
  records.foldl (fun acc r =>
    match keyOf r with
    | none => acc
    | some k =>
      let current := (assocGet acc.1 k).getD emptyRec
      let merged := mergeRecord current r
      if current = merged then acc else (assocSet acc.1 k merged, true))
    (byHash, false)

/-- The values of the ordered map, in insertion order. -/
def mapValues (m : List (String × Rec)) : List Rec :=
  m.map Prod.snd

/-- Sort key of `update_manifest` line 89: `str(item.get("downloaded_at", ""))`. -/
def sortKey (d : Rec) : String :=
  d.downloaded_at.getD ""

/-- One step of a stable descending insertion: `a` is placed before the first
element whose key is strictly smaller, i.e. after every earlier element with
an equal or larger key. -/
def insertDesc (a : Rec) : List Rec → List Rec
  | [] => [a]
  | b :: bs => if sortKey b < sortKey a then a :: b :: bs else b :: insertDesc a bs

/-- `sorted(values, key=downloaded_at, reverse=True)` of `update_manifest`
lines 87-91: a stable sort, descending in the `downloaded_at` string. -/
def sortDocs (l : List Rec) : List Rec :=
  l.foldl (fun acc a => insertDesc a acc) []

/-- The aggregate statistics of `_compute_stats` (lines 146-173). -/
structure Stats where
  total : Nat
  indexed : Nat
  duplicates : Nat
  skipped : Nat
  total_size : Int
  status_breakdown : List (String × Nat)
deriving DecidableEq, Repr

/-- `breakdown[status] = breakdown.get(status, 0) + 1`. -/
def bumpBreakdown (bd : List (String × Nat)) (s : String) : List (String × Nat) :=
  match bd with
  | [] => [(s, 1)]
  | (k, n) :: rest => if k = s then (k, n + 1) :: rest else (k, n) :: bumpBreakdown rest s

/-- `_compute_stats` of `src/storage/manifest.py`: totals, per-status counts
and the cumulative byte size over the document list. -/
def computeStats (docs : List Rec) : Stats :=
  docs.foldl (fun st d =>
    let st := { st with total := st.total + 1 }
    let st := match d.size with
      | some z => { st with total_size := st.total_size + z }
      | none => st
    let status := normStatus d.status
    let st := { st with status_breakdown := bumpBreakdown st.status_breakdown status }
    if status = "indexed" then { st with indexed := st.indexed + 1 }
    else if status = "duplicate" then { st with duplicates := st.duplicates + 1 }
    else { st with skipped := st.skipped + 1 })
    ⟨0, 0, 0, 0, 0, []⟩

/-- The `Manifest` dataclass of `src/storage/manifest.py`. -/
structure Manifest where
  documents : List Rec
  stats : Stats
  updated_at : Option String
deriving DecidableEq, Repr

/-- `_default_manifest()`. -/
def default_manifest : Manifest :=
  ⟨[], computeStats [], none⟩

/-- A Python exception escaping a storage-layer call. -/
inductive PyErr
  | attributeError
deriving DecidableEq, Repr

/-- The state of `manifest.json` inside the download directory.
* `missing`: the file does not exist (`path.exists()` is false).
* `notJson`: the file exists but its text is not valid JSON, so
  `json.loads` raises `JSONDecodeError` (which `load_manifest` catches).
* `jsonWrongShape`: the file exists and holds valid JSON whose top level is
  not an object — e.g. the text `[]` or `null`.  `json.loads` succeeds and
  returns a non-dict, and `data.get("documents", [])` then raises an
  uncaught `AttributeError`.
* `stored documents updated_at`: the file holds a JSON object of the shape
  `update_manifest` writes (documents plus an optional `updated_at`). -/
inductive FileState
  | missing
  | notJson
  | jsonWrongShape
  | stored (documents : List Rec) (updated_at : Option String)
deriving DecidableEq, Repr

/-- `load_manifest` of `src/storage/manifest.py` (lines 37-55): a missing file
or a `JSONDecodeError` yield the default manifest; valid JSON of the wrong
shape raises; otherwise the documents get their `status`/`indexed` defaults
and the stats are recomputed. -/
def load_manifest (fs : FileState) : Except PyErr Manifest :=
  match fs with
  | .missing => .ok default_manifest
  | .notJson => .ok default_manifest
  | .jsonWrongShape => .error .attributeError
  | .stored docs upd =>
    let documents := docs.map loadFix
    .ok ⟨documents, computeStats documents, upd⟩

/-- `path.exists()` for the manifest file. -/
def fileExists : FileState → Bool
  | .missing => false
  | _ => true

/-- `update_manifest` of `src/storage/manifest.py` (lines 58-110): load the
existing ledger, merge every record keyed by content hash, skip the write
when nothing changed and the ledger file exists, otherwise sort, recompute
stats, stamp `updated_at := now` and write the new ledger. -/
def update_manifest (fs : FileState) (records : List Rec) (now : String) :
    Except PyErr (FileState × Manifest) :=
  match load_manifest fs with
  | .error e => .error e
  | .ok existing =>
    let st := applyRecords (buildByHash existing.documents) records
    if st.2 = false ∧ fileExists fs = true then .ok (fs, existing)
    else
      let documents := sortDocs (mapValues st.1)
      let stats := computeStats documents
      .ok (.stored documents (some now), ⟨documents, stats, some now⟩)

/-- Modelled from the spec: `pending_documents` is imported by
`src/storage/__init__.py` and `src/app.py` but its definition is absent from
`src/storage/manifest.py` in this snapshot of the repository.  Per §4.4 of
the spec it "returns every Document whose status is not `indexed`". -/
def pending_documents (m : Manifest) : List Rec :=
  m.documents.filter (fun d => !(d.status == some "indexed"))

/-- What the modelled filesystem knows about a PDF file: its SHA-256 hex
digest, byte size, base name and resolved absolute path.  `file_sha256` and
`path.stat()` of `es_index.py` read these. -/
structure FileInfo where
  sha256 : String
  size : Int
  name : String
  resolved : String
deriving DecidableEq, Repr

/-- The filesystem, as a map from the path string a caller passes to the
information about the file, `none` when `path.exists()` is false. -/
abbrev Disk : Type := String → Option FileInfo

/-- `build_document_metadata` of `src/elasticsearch_index/es_index.py`
(lines 86-110): `none` models the `FileNotFoundError`; otherwise the metadata
dict keyed by the content hash, with `downloaded_at or utcnow()`. -/
def build_document_metadata (disk : Disk) (pdf_path pdf_url : String)
    (source_page downloaded_at : Option String) (now : String) : Option Rec :=
  match disk pdf_path with
  | none => none
  | some fi => some
    { id := some fi.sha256
      sha256 := some fi.sha256
      name := some fi.name
      path := some fi.resolved
      size := some fi.size
      url := some pdf_url
      source_page := source_page
      downloaded_at := some (match downloaded_at with
        | some s => if s = "" then now else s
        | none => now)
      status := none
      indexed := none }

/-- A character of the whitespace set that Python `str.strip()` removes. -/
def isPySpace (c : Char) : Bool :=
  c = ' ' || c = '\t' || c = '\n' || c = '\r' || c = '\x0b' || c = '\x0c'

/-- `not pdf_content.strip()`: the string is empty or whitespace-only. -/
def isBlank (s : String) : Bool :=
  s.data.all isPySpace

/-- One `es.index(...)` call recorded in the modelled engine: the document id,
the document body (metadata plus the extracted `content` field) and the
`refresh` write mode passed to the call. -/
structure EsOp where
  id : String
  body : Rec × String
  refresh : String
deriving DecidableEq, Repr

/-- The modelled search-engine index: the list of upserted documents (any
pre-existing index content is a seed list of such operations). -/
abbrev EsState : Type := List EsOp

/-- `es.exists(index=ES_INDEX, id=i)`. -/
def esExists (es : EsState) (i : String) : Bool :=
  es.any (fun op => op.id = i)

/-- `index_pdf` of `src/elasticsearch_index/es_index.py` (lines 113-159):
missing file → `none`; blank extracted text → status `no_text`, no write;
hash already present → status `duplicate`, no write; otherwise upsert with
`refresh="wait_for"` and status `indexed`.  Returns the manifest metadata and
the engine state after the call. -/
def index_pdf (disk : Disk) (ext : String → String) (es : EsState)
    (pdf_path pdf_url : String) (source_page downloaded_at : Option String)
    (now : String) : Option Rec × EsState :=
  match disk pdf_path with
  | none => (none, es)
  | some _ =>
    match build_document_metadata disk pdf_path pdf_url source_page downloaded_at now with
    | none => (none, es)
    | some metadata =>
      let pdf_content := ext pdf_path
      if isBlank pdf_content then
        (some { metadata with indexed := some false, status := some "no_text" }, es)
      else
        let doc_hash := metadata.sha256.getD ""
        if esExists es doc_hash then
          (some { metadata with indexed := some false, status := some "duplicate" }, es)
        else
          (some { metadata with indexed := some true, status := some "indexed" },
            es ++ [⟨doc_hash, (metadata, pdf_content), "wait_for"⟩])

/-- One element of the iterable handed to `index_multiple`: the crawl
descriptor dict with its `path`, `url` and optional provenance keys. -/
structure IndexInput where
  path : String
  url : String
  source_page : Option String
  downloaded_at : Option String
deriving DecidableEq, Repr

/-- The statistics-with-records dict `index_multiple` returns. -/
structure BatchResult where
  indexed : Nat
  duplicates : Nat
  skipped : Nat
  documents : List Rec
deriving DecidableEq, Repr

/-- The `for doc in documents` loop of `index_multiple` (lines 174-192). -/
def index_multiple_go (disk : Disk) (ext : String → String) (now : String)
    (acc : BatchResult) (es : EsState) : List IndexInput → BatchResult × EsState
  | [] => (acc, es)
  | d :: ds =>
    let step := index_pdf disk ext es d.path d.url d.source_page d.downloaded_at now
    match step.1 with
    | none => index_multiple_go disk ext now acc step.2 ds
    | some r =>
      let acc1 := { acc with documents := acc.documents ++ [r] }
      let acc2 :=
        if r.status = some "indexed" then { acc1 with indexed := acc1.indexed + 1 }
        else if r.status = some "duplicate" then { acc1 with duplicates := acc1.duplicates + 1 }
        else { acc1 with skipped := acc1.skipped + 1 }
      index_multiple_go disk ext now acc2 step.2 ds

/-- `index_multiple` of `src/elasticsearch_index/es_index.py` (lines 162-199):
index every input against the one shared client, counting `indexed`,
`duplicates` and `skipped` and collecting the manifest records. -/
def index_multiple (disk : Disk) (ext : String → String) (es : EsState)
    (docs : List IndexInput) (now : String) : BatchResult × EsState :=
  index_multiple_go disk ext now ⟨0, 0, 0, []⟩ es docs

/-- A crawl descriptor as produced by `crawl_and_download` and consumed by
`app.py`: `doc["path"]`, `doc["url"]` are always present, the provenance
keys are read with `.get`. -/
structure CrawlDoc where
  path : String
  url : String
  source_page : Option String
  downloaded_at : Option String
deriving DecidableEq, Repr

/-- `_pending_records` of `src/app.py` (lines 181-193): rebuild the metadata
of every downloaded file that still exists on disk and mark it
`indexed=False, status="not_indexed"`; missing files are skipped. -/
def pending_records (disk : Disk) (docs : List CrawlDoc) (now : String) : List Rec :=
  docs.filterMap (fun d =>
    (build_document_metadata disk d.path d.url d.source_page d.downloaded_at now).map
      (fun m => { m with indexed := some false, status := some "not_indexed" }))

/-- The `message` dict rendered by the success path of `start_scraping`
(lines 142-153). -/
structure RunMessage where
  website_url : String
  downloaded : Nat
  indexed : Nat
  duplicates : Nat
  skipped : Nat
  indexed_new : Nat
  duplicates_new : Nat
  skipped_new : Nat
  reindexed_pending : Nat
  library_total : Nat
deriving DecidableEq, Repr

/-- What `start_scraping` hands to the HTTP layer after the indexing phase:
either the success rendering with its `message` dict, or the deferred-error
rendering (lines 136-140) carrying only the fixed error string, the updated
manifest and the 502 status. -/
inductive Outcome
  | success (message : RunMessage) (manifest : Manifest)
  | deferred (error : String) (manifest : Manifest) (http_status : Nat)
deriving DecidableEq, Repr

/-- The fixed error message of `start_scraping` lines 136-139. -/
def esUnavailableMsg : String :=
  "Failed to index PDFs because Elasticsearch is unavailable. " ++
  "Downloads are recorded locally and can be re-indexed later."

/-- `_empty_index_stats()` of `src/app.py`. -/
def empty_index_stats : BatchResult :=
  ⟨0, 0, 0, []⟩

/-- Reading `doc["path"]` / `doc["url"]` / `.get(...)` off a pending manifest
record when `index_multiple` is invoked on it by `start_scraping`. -/
def recToIndexInput (r : Rec) : IndexInput :=
  ⟨r.path.getD "", r.url.getD "", r.source_page, r.downloaded_at⟩

/-- `crawlDoc` to `index_multiple` input (`doc["path"]`, `doc["url"]`, ...). -/
def crawlDocToIndexInput (d : CrawlDoc) : IndexInput :=
  ⟨d.path, d.url, d.source_page, d.downloaded_at⟩

/-- The indexing phase of `start_scraping` (`src/app.py` lines 112-155),
entered after the crawl returned `downloaded`.  `engineUp` tells whether the
search engine is reachable: when it is not, `create_index`/`index_multiple`
raise `RuntimeError` and the handler takes the `except` branch, which records
the downloads as `not_indexed` and returns the deferred 502 outcome. -/
def scrape_index_phase (engineUp : Bool) (disk : Disk) (ext : String → String)
    (es : EsState) (fs : FileState) (start_url : String)
    (downloaded : List CrawlDoc) (now : String) :
    Except PyErr (FileState × EsState × Outcome) :=
  match load_manifest fs with
  | .error e => .error e
  | .ok loaded =>
    let pending_to_index := pending_documents loaded
    if engineUp then
      let pendingStep :=
        if pending_to_index.isEmpty then (empty_index_stats, es)
        else index_multiple disk ext es (pending_to_index.map recToIndexInput) now
      let newStep :=
        if downloaded.isEmpty then (empty_index_stats, pendingStep.2)
        else index_multiple disk ext pendingStep.2 (downloaded.map crawlDocToIndexInput) now
      let pending_stats := pendingStep.1
      let new_stats := newStep.1
      match update_manifest fs (pending_stats.documents ++ new_stats.documents) now with
      | .error e => .error e
      | .ok (fs', manifest) =>
        let message : RunMessage :=
          { website_url := start_url
            downloaded := downloaded.length
            indexed := pending_stats.indexed + new_stats.indexed
            duplicates := pending_stats.duplicates + new_stats.duplicates
            skipped := pending_stats.skipped + new_stats.skipped
            indexed_new := new_stats.indexed
            duplicates_new := new_stats.duplicates
            skipped_new := new_stats.skipped
            reindexed_pending := pending_stats.indexed
            library_total := manifest.stats.total }
        .ok (fs', newStep.2, .success message manifest)
    else
      match update_manifest fs (pending_records disk downloaded now) now with
      | .error e => .error e
      | .ok (fs', manifest) =>
        .ok (fs', es, .deferred esUnavailableMsg manifest 502)

/-- Python `str.lower()` on one ASCII character. -/
def lowerChar (c : Char) : Char :=
  if 'A' ≤ c ∧ c ≤ 'Z' then Char.ofNat (c.toNat + 32) else c

/-- Python `str.lower()` (ASCII range, which covers hostnames). -/
def lowerStr (s : String) : String :=
  ⟨s.data.map lowerChar⟩

/-- An absolute URL after `urldefrag`/`urljoin`, as `urlparse` dissects it:
scheme, host, optional port and path.  `netloc` is `host[:port]` and
`hostname` is the lowercased host. -/
structure Url where
  scheme : String
  host : String
  port : Option Nat
  path : String
deriving DecidableEq, Repr

/-- `parsed.netloc.lower()`. -/
def Url.netlocLower (u : Url) : String :=
  lowerStr u.host ++ (match u.port with
    | some p => ":" ++ toString p
    | none => "")

/-- `parsed.hostname.lower() if parsed.hostname else ""`. -/
def Url.hostnameLower (u : Url) : String :=
  lowerStr u.host

/-- `lowered.split(":", 1)[0]`: the prefix before the first colon. -/
def beforeColon (s : String) : String :=
  ⟨s.data.takeWhile (fun c => !(c = ':'))⟩

/-- The `allowed` set built from `allowed_hosts` by `crawl_and_download`
(lines 77-84): each host lowercased, plus its port-stripped form when it
contains a colon.  `none` models the Python `None` kept when `allowed_hosts`
is falsy (absent or empty). -/
def buildAllowedList (hosts : List String) : List String :=
  hosts.foldl (fun acc h =>
    let lowered := lowerStr h
    let acc := acc ++ [lowered]
    if lowered.data.contains ':' then acc ++ [beforeColon lowered] else acc) []

/-- `allowed = None` unless `allowed_hosts` is truthy. -/
def buildAllowed (hosts : List String) : Option (List String) :=
  if hosts.isEmpty then none else some (buildAllowedList hosts)

/-- The outcome of one HTTP GET attempt for a page: a timeout (retried), a
response with a status code and the page's anchor targets already resolved
to absolute defragmented URLs, or a non-timeout transport error. -/
inductive PageResult
  | timeout
  | ok (status : Nat) (links : List Url)
  | connError
deriving Repr

/-- The network behaviour for page fetches: the result of the `attempt`-th
GET of each URL. -/
abbrev PageNet : Type := Url → Nat → PageResult

/-- `_request_with_retries` of `src/crawler/crawler.py` (lines 125-159):
status 200 returns the page, any other status or a transport error abandons
immediately, a timeout retries until the attempt budget is exhausted.  The
first argument of the recursion is the remaining budget
(`retries - attempt`), the second the attempt counter. -/
def request_with_retries (net : PageNet) (u : Url) :
    Nat → Nat → Option (List Url)
  | 0, _ => none
  | rem + 1, attempt =>
    match net u attempt with
    | .timeout => request_with_retries net u rem (attempt + 1)
    | .ok code links => if code = 200 then some links else none
    | .connError => none

/-- The metadata dict `download_pdf` returns (with `source_page` attached by
the crawl loop). -/
structure PdfMeta where
  url : Url
  path : String
  filename : String
  downloaded_at : String
  source_page : Option Url
deriving DecidableEq, Repr

/-- `parsed.path.lower().endswith(".pdf")`: the lowercased path ends in the
four characters `.pdf`. -/
def endsWithPdf (p : String) : Bool :=
  match ((lowerStr p).data).reverse with
  | 'f' :: 'd' :: 'p' :: '.' :: _ => true
  | _ => false

/-- The `continue` condition on line 111: scoping is active, and neither the
lowercased netloc nor the lowercased hostname is in the allowed set. -/
def rejectHost (allowed : Option (List String)) (u : Url) : Bool :=
  match allowed with
  | none => false
  | some l => !l.isEmpty && !l.contains u.netlocLower && !l.contains u.hostnameLower

/-- The crawl state: the visited set, the FIFO frontier, the collected
download descriptors, plus two traces that instrument the model — `fetched`
records every URL the loop hands to `_request_with_retries`, and `acquired`
records every URL routed to `download_pdf`. -/
structure CrawlState where
  visited : List Url
  queue : List Url
  downloaded : List PdfMeta
  fetched : List Url
  acquired : List Url
deriving DecidableEq, Repr

/-- The per-href body of the link loop of `crawl_and_download` (lines
97-120): reject non-http(s) schemes, apply host scoping, route `.pdf` paths
to acquisition (the downloader is the `dl` parameter, standing for
`download_pdf` against the download folder), and enqueue unvisited pages. -/
def processLink (dl : Url → Option PdfMeta) (allowed : Option (List String))
    (current : Url) (s : CrawlState) (link : Url) : CrawlState :=
  if !(link.scheme = "http" || link.scheme = "https") then s
  else if rejectHost allowed link then s
  else if endsWithPdf link.path then
    let s := { s with acquired := s.acquired ++ [link] }
    match dl link with
    | some info => { s with downloaded := s.downloaded ++ [{ info with source_page := some current }] }
    | none => s
  else if link ∈ s.visited then s
  else { s with queue := s.queue ++ [link] }

/-- The `while queue` loop of `crawl_and_download` (lines 86-121), bounded by
explicit fuel (the Python loop has no bound of its own): pop, skip if
visited, otherwise mark visited, fetch with retries, and process the page's
links. -/
def crawlLoop (net : PageNet) (dl : Url → Option PdfMeta)
    (allowed : Option (List String)) (retries : Nat) :
    Nat → CrawlState → CrawlState
  | 0, s => s
  | fuel + 1, s =>
    match s.queue with
    | [] => s
    | current :: rest =>
      if current ∈ s.visited then
        crawlLoop net dl allowed retries fuel { s with queue := rest }
      else
        let s1 : CrawlState :=
          { s with
            queue := rest
            visited := s.visited ++ [current]
            fetched := s.fetched ++ [current] }
        match request_with_retries net current retries 0 with
        | none => crawlLoop net dl allowed retries fuel s1
        | some links =>
          crawlLoop net dl allowed retries fuel (links.foldl (processLink dl allowed current) s1)

/-- `crawl_and_download` of `src/crawler/crawler.py` (lines 35-122): seed the
frontier with the start URL and drain it. -/
def crawl_and_download (net : PageNet) (dl : Url → Option PdfMeta)
    (start : Url) (fuel retries : Nat) (allowed_hosts : List String) : CrawlState :=
  crawlLoop net dl (buildAllowed allowed_hosts) retries fuel ⟨[], [start], [], [], []⟩

/-- The outcome of one HTTP GET of the binary download. -/
inductive BinResult
  | timeout
  | ok (status : Nat) (content : String)
  | connError
deriving DecidableEq, Repr

/-- `os.path.basename(parsed.path)`: everything after the last `/`
(the whole string when there is no slash). -/
def basename (p : String) : String :=
  ⟨p.data.foldl (fun acc c => if c = '/' then [] else acc ++ [c]) []⟩

/-- `os.path.basename(parsed.path) or "downloaded.pdf"` (line 169). -/
def pdfName (u : Url) : String :=
  let b := basename u.path
  if b = "" then "downloaded.pdf" else b

/-- `download_pdf` of `src/crawler/crawler.py` (lines 162-202).  `net n` is
the outcome the network would give the `n`-th GET attempt for this URL;
`files` is the set of file names already present in the download folder;
`modTime` is the stored file's mtime stamp.  The second component of the
result lists the timeout value of every GET actually issued: the cache hit
issues none, and every other path issues exactly one GET with `timeout=30` —
a timeout or transport error returns `None` without any retry
(`_request_with_retries` is not used here), and a 4xx/5xx status makes
`raise_for_status` raise, also returning `None`. -/
def download_pdf (net : Nat → BinResult) (files : List String) (u : Url)
    (now modTime : String) : Option PdfMeta × List Nat :=
  let name := pdfName u
  if files.contains name then
    (some ⟨u, name, name, modTime, none⟩, [])
  else
    match net 0 with
    | .timeout => (none, [30])
    | .connError => (none, [30])
    | .ok code _ =>
      if 400 ≤ code then (none, [30])
      else (some ⟨u, name, name, now, none⟩, [30])

/-- The Elasticsearch query body `search_pdfs` builds (lines 214-228): size,
query string, the multi-match fields, the match type and the highlight
fragment settings. -/
structure SearchBody where
  size : Nat
  query : String
  fields : List String
  match_type : String
  highlight_fragment_size : Nat
  highlight_number_of_fragments : Nat
deriving DecidableEq, Repr

/-- The body for a given size and query, with the constants of the source. -/
def mkSearchBody (size : Nat) (query : String) : SearchBody :=
  ⟨size, query, ["name^2", "content", "url", "source_page"], "best_fields", 200, 1⟩

/-- `search_pdfs` of `src/elasticsearch_index/es_index.py` (lines 202-231):
a falsy (empty) query returns `[]` before any client is obtained; otherwise
one search call is issued with the built body.  `es` is the engine's answer
to a body; the second component traces the bodies actually sent. -/
def search_pdfs {α : Type} (es : SearchBody → List α) (query : String)
    (size : Nat := 20) : List α × List SearchBody :=
  if query = "" then ([], [])
  else (es (mkSearchBody size query), [mkSearchBody size query])

/-- The `status` value `_merge_record` produces, stated as a closed form used
by the lemmas below. -/
def mergedStatusVal (e n : Rec) : Option String :=
  if statusPriority (normStatus e.status) ≤ statusPriority (normStatus n.status)
  then some (normStatus n.status) else e.status

/-- The `indexed` value `_merge_record` produces, stated as a closed form. -/
def mergedIndexedVal (e n : Rec) : Option Bool :=
  match n.indexed with
  | some b => some (b || e.indexed.getD false)
  | none =>
    match e.indexed with
    | some b => some b
    | none => some (mergedStatusVal e n = some "indexed")

/-- Records used to instantiate the C2 theorem at concrete inputs. -/
def c2existing : Rec :=
  { emptyRec with sha256 := some "h1", status := some "not_indexed" }

/-- Incoming record with status `indexed` for the C2 witness. -/
def c2incoming : Rec :=
  { emptyRec with sha256 := some "h1", status := some "indexed", indexed := some true }

/-- The network behaviour used by the C6 counterexample: the first GET
attempt times out, every later attempt would succeed with status 200. -/
def netTimeoutThenOk : Nat → BinResult :=
  fun n => if n = 0 then .timeout else .ok 200 "pdfbytes"

/-- The PDF URL used by the C6 counterexample. -/
def urlPdfEx : Url :=
  ⟨"http", "a.com", none, "/files/c.pdf"⟩

/-- Concrete disk for the C4 witness: one PDF at `/docs/a.pdf`. -/
def c4disk : Disk :=
  fun p => if p = "/docs/a.pdf" then some ⟨"cafe01", 10, "a.pdf", "/abs/docs/a.pdf"⟩ else none

/-- Concrete extractor for the C4 witness: nonempty text for the PDF. -/
def c4ext : String → String :=
  fun _ => "hello world"

/-- Engine state already holding the C4 witness document's hash. -/
def c4esSeed : EsState :=
  [⟨"cafe01", (emptyRec, "hello world"), "wait_for"⟩]

/-- The batch re-run in the C4 witness: the same document twice. -/
def c4batch : List IndexInput :=
  [⟨"/docs/a.pdf", "http://a.com/a.pdf", none, some "T0"⟩,
   ⟨"/docs/a.pdf", "http://a.com/a.pdf", some "http://a.com/", some "T0"⟩]

/-- Page A of the C9 example graph: the crawl seed. -/
def exA : Url := ⟨"http", "a.com", none, "/"⟩

/-- Page B of the C9 example graph, linked from A, same host. -/
def exB : Url := ⟨"http", "a.com", none, "/b"⟩

/-- The PDF document C of the C9 example graph, linked from B. -/
def exC : Url := ⟨"http", "a.com", none, "/c.pdf"⟩

/-- Page D of the C9 example graph: an external host linked from A. -/
def exD : Url := ⟨"http", "d.com", none, "/"⟩

/-- The network of the C9 example: A links to B and D, B links to C.pdf. -/
def exNet : PageNet := fun u _ =>
  if u = exA then .ok 200 [exB, exD]
  else if u = exB then .ok 200 [exC]
  else .ok 404 []

/-- The downloader of the C9 example: only C.pdf yields a document. -/
def exDl : Url → Option PdfMeta := fun u =>
  if u = exC then some ⟨exC, "c.pdf", "c.pdf", "T", none⟩ else none

/-- Record used to instantiate the C5 idempotence theorem concretely. -/
def c5rec : Rec :=
  { emptyRec with
    sha256 := some "beef01"
    url := some "http://a.com/x.pdf"
    downloaded_at := some "T0"
    status := some "not_indexed"
    indexed := some false }

/-- One step of the record-merge loop of `update_manifest`, as folded by
`applyRecords` (stated separately so the fold can be reasoned about). -/
def applyStep (acc : List (String × Rec) × Bool) (r : Rec) :
    List (String × Rec) × Bool :=
  match keyOf r with
  | none => acc
  | some k =>
    let current := (assocGet acc.1 k).getD emptyRec
    let merged := mergeRecord current r
    if current = merged then acc else (assocSet acc.1 k merged, true)

/-- Disk for the C3 counterexample: one downloaded file with hash `aa11`. -/
def c3disk : Disk :=
  fun p => if p = "/dl/a.pdf" then some ⟨"aa11", 5, "a.pdf", "/abs/a.pdf"⟩ else none

/-- Ledger record of the C3 counterexample: hash `aa11` already `indexed`. -/
def c3prev : Rec :=
  { emptyRec with
    sha256 := some "aa11"
    status := some "indexed"
    indexed := some true
    downloaded_at := some "T0" }

/-- The crawl result of the C3 counterexample: one freshly downloaded file
whose content hash is `aa11`. -/
def c3dl : List CrawlDoc :=
  [⟨"/dl/a.pdf", "http://a.com/a.pdf", some "http://a.com/", some "T1"⟩]

/-- Ledger state of the C3 counterexample. -/
def c3fs : FileState := FileState.stored [c3prev] (some "T0")

/-- The manifest record after the deferred-path merge of the C3
counterexample: descriptive fields refreshed, status still `indexed`. -/
def c3merged : Rec :=
  { name := some "a.pdf"
    path := some "/abs/a.pdf"
    url := some "http://a.com/a.pdf"
    source_page := some "http://a.com/"
    downloaded_at := some "T1"
    size := some 5
    sha256 := some "aa11"
    id := some "aa11"
    status := some "indexed"
    indexed := some true }

/-! ### end of definitions -/

/-! ## Basic facts about the status lattice and record merging -/

lemma normStatus_ne_empty (o : Option String) : normStatus o ≠ "" := by
  cases o with
  | none => simp [normStatus]
  | some s =>
    by_cases h : s = "" <;> simp [normStatus, h]

lemma normStatus_norm (o : Option String) :
    normStatus (some (normStatus o)) = normStatus o := by
  cases o with
  | none => decide
  | some s => by_cases h : s = "" <;> simp [normStatus, h]

lemma statusPriority_eq_forty (s : String) :
    statusPriority s = 40 ↔ s = "indexed" := by
  unfold statusPriority
  split_ifs <;> simp_all

lemma pick_idem (a b : Option α) : pick a (pick a b) = pick a b := by
  cases a <;> simp [pick]

lemma mergeRecord_eq (e n : Rec) :
    mergeRecord e n =
      { name := pick n.name e.name
        path := pick n.path e.path
        url := pick n.url e.url
        source_page := pick n.source_page e.source_page
        downloaded_at := pick n.downloaded_at e.downloaded_at
        size := pick n.size e.size
        sha256 := pick n.sha256 e.sha256
        id := pick n.id e.id
        status := mergedStatusVal e n
        indexed := mergedIndexedVal e n } := by
  simp only [mergeRecord, mergedStatusVal, mergedIndexedVal]
  split_ifs with h
  · rcases hn : n.indexed with _ | b
    · rcases he : e.indexed with _ | c <;> simp [hn, he]
    · simp [hn]
  · rcases hn : n.indexed with _ | b
    · rcases he : e.indexed with _ | c <;> simp [hn, he]
    · simp [hn]

lemma mergedStatusVal_isSome (e n : Rec) : (mergedStatusVal e n).isSome = true := by
  unfold mergedStatusVal
  split
  · rfl
  · rename_i h
    cases hs : e.status with
    | none => simp [hs, normStatus, statusPriority] at h
    | some s => rfl

lemma mergedIndexedVal_isSome (e n : Rec) : (mergedIndexedVal e n).isSome = true := by
  unfold mergedIndexedVal
  rcases n.indexed with _ | b
  · rcases e.indexed with _ | c <;> rfl
  · rfl

lemma normStatus_mergedStatusVal (e n : Rec) :
    normStatus (mergedStatusVal e n) =
      if statusPriority (normStatus e.status) ≤ statusPriority (normStatus n.status)
      then normStatus n.status else normStatus e.status := by
  unfold mergedStatusVal
  split <;> simp [normStatus_norm]

/-- The priority of the merged status is at least the existing one. -/
lemma mergedStatusVal_mono (e n : Rec) :
    statusPriority (normStatus e.status) ≤ statusPriority (normStatus (mergedStatusVal e n)) := by
  rw [normStatus_mergedStatusVal]
  split <;> omega

/-- The priority of the merged status is at least the incoming one. -/
lemma mergedStatusVal_ge_new (e n : Rec) :
    statusPriority (normStatus n.status) ≤ statusPriority (normStatus (mergedStatusVal e n)) := by
  rw [normStatus_mergedStatusVal]
  split <;> omega

/-- The priority of the merged status never exceeds both inputs. -/
lemma mergedStatusVal_le_max (e n : Rec) :
    statusPriority (normStatus (mergedStatusVal e n)) ≤
      max (statusPriority (normStatus e.status)) (statusPriority (normStatus n.status)) := by
  rw [normStatus_mergedStatusVal]
  split
  · exact le_max_right _ _
  · exact le_max_left _ _

lemma mergedStatusVal_only_status (e e' n : Rec) (h : e.status = e'.status) :
    mergedStatusVal e n = mergedStatusVal e' n := by
  simp [mergedStatusVal, h]

lemma mergedStatusVal_idem (e n : Rec) :
    mergedStatusVal { e with status := mergedStatusVal e n } n = mergedStatusVal e n := by
  by_cases h : statusPriority (normStatus e.status) ≤ statusPriority (normStatus n.status)
  · simp [mergedStatusVal, if_pos h, normStatus_norm]
  · simp [mergedStatusVal, if_neg h]

lemma mergeRecord_idem (e n : Rec) :
    mergeRecord (mergeRecord e n) n = mergeRecord e n := by
  rw [mergeRecord_eq e n, mergeRecord_eq]
  simp only [Rec.mk.injEq]
  refine ⟨pick_idem _ _, pick_idem _ _, pick_idem _ _, pick_idem _ _, pick_idem _ _,
    pick_idem _ _, pick_idem _ _, pick_idem _ _, ?_, ?_⟩
  · exact (mergedStatusVal_only_status _ _ n rfl).trans (mergedStatusVal_idem e n)
  · rcases hn : n.indexed with _ | b
    · simp only [mergedIndexedVal, hn]
      rcases he : e.indexed with _ | c <;> simp [he]
    · simp only [mergedIndexedVal, hn]
      rcases he : e.indexed with _ | c <;> simp [he]

lemma mergeRecord_status (e n : Rec) :
    (mergeRecord e n).status = mergedStatusVal e n := by
  rw [mergeRecord_eq]

lemma foldl_mergeRecord_mono (l : List Rec) (e : Rec) :
    statusPriority (normStatus e.status) ≤
      statusPriority (normStatus ((l.foldl mergeRecord e).status)) := by
  induction l generalizing e with
  | nil => simp
  | cons n rest ih =>
    refine le_trans ?_ (ih (mergeRecord e n))
    rw [mergeRecord_status]
    exact mergedStatusVal_mono e n

/-- C1: over the loaded Manifest, `pending` returns exactly the documents
whose status is not `indexed`: membership in `pending_documents m` is
equivalent to membership in `m.documents` with a status different from
`indexed`.  (`pending_documents` is modelled from the spec because its
definition is missing from `src/storage/manifest.py`, which only its
importers reference.) -/
theorem pending_documents_characterization (m : Manifest) (d : Rec) :
    d ∈ pending_documents m ↔ d ∈ m.documents ∧ d.status ≠ some "indexed" := by
  simp [pending_documents, List.mem_filter]

/-- C2: `_merge_record` implements the status lattice
`unknown(0) < not_indexed(10) < no_text(20) < duplicate(30) < indexed(40)`:
the status is replaced exactly when the incoming rank is `≥` the current
rank, merging a `duplicate` record into an `indexed` one leaves the status
`indexed`, and the rank of the status never decreases across any sequence
of merges. -/
theorem merge_status_lattice_monotone (e n : Rec) (l : List Rec) :
    (statusPriority "unknown" = 0 ∧ statusPriority "not_indexed" = 10 ∧
      statusPriority "no_text" = 20 ∧ statusPriority "duplicate" = 30 ∧
      statusPriority "indexed" = 40)
    ∧ (statusPriority (normStatus e.status) ≤ statusPriority (normStatus n.status) →
        (mergeRecord e n).status = some (normStatus n.status))
    ∧ (statusPriority (normStatus n.status) < statusPriority (normStatus e.status) →
        (mergeRecord e n).status = e.status)
    ∧ (mergeRecord { e with status := some "indexed" }
        { n with status := some "duplicate" }).status = some "indexed"
    ∧ statusPriority (normStatus e.status) ≤
        statusPriority (normStatus ((l.foldl mergeRecord e).status)) := by
  refine ⟨by decide, ?_, ?_, ?_, foldl_mergeRecord_mono l e⟩
  · intro h
    rw [mergeRecord_status]
    unfold mergedStatusVal
    rw [if_pos h]
  · intro h
    rw [mergeRecord_status]
    unfold mergedStatusVal
    rw [if_neg (not_le.mpr h)]
  · simp [mergeRecord_status, mergedStatusVal, normStatus, statusPriority]


theorem merge_status_lattice_monotone_witness :
    (mergeRecord c2existing c2incoming).status = some (normStatus c2incoming.status) ∧
    (mergeRecord { c2existing with status := some "indexed" }
      { c2incoming with status := some "duplicate" }).status = some "indexed" := by
  have h := merge_status_lattice_monotone c2existing c2incoming []
  exact ⟨h.2.1 (by decide), h.2.2.2.1⟩

/-- C10: a falsy (empty) query string makes `search_pdfs` return `[]` with no
search call issued to the engine (the traced body list is empty, and the
result does not depend on the engine at all), and a call without an explicit
`size` sends a body whose size is the default 20. -/
theorem search_pdfs_empty_query_and_default_size {α : Type} (es : SearchBody → List α)
    (q : String) (hq : q ≠ "") :
    search_pdfs es "" = ([], []) ∧
    (search_pdfs es q).2 = [mkSearchBody 20 q] ∧
    (mkSearchBody 20 q).size = 20 := by
  refine ⟨by simp [search_pdfs], ?_, rfl⟩
  simp [search_pdfs, hq]

theorem search_pdfs_empty_query_and_default_size_witness :
    search_pdfs (fun _ => ([] : List Nat)) "" = ([], []) ∧
    (search_pdfs (fun _ => ([] : List Nat)) "tax").2 = [mkSearchBody 20 "tax"] ∧
    (mkSearchBody 20 "tax").size = 20 :=
  search_pdfs_empty_query_and_default_size (fun _ => []) "tax" (by decide)

/-- C7 counterexample: a ledger file whose content is valid JSON of the
wrong shape (e.g. the text `[]`, a JSON array) makes `load_manifest` raise
an uncaught `AttributeError` (`json.loads` succeeds, so the
`except json.JSONDecodeError` handler does not fire, and
`data.get("documents", [])` is called on a non-dict), contradicting the
claim that malformed content always yields an empty Manifest and that a
fatal error is never raised. -/
theorem load_manifest_wrong_shape_raises :
    load_manifest FileState.jsonWrongShape = Except.error PyErr.attributeError := rfl

/-- C7 amended: `load_manifest` is fail-soft for a missing ledger file and
for content that is not syntactically valid JSON — both give the empty
default Manifest — and it never raises in any state other than the
valid-JSON-of-wrong-shape one. -/
theorem load_manifest_fail_soft (fs : FileState) (h : fs ≠ FileState.jsonWrongShape) :
    load_manifest FileState.missing = Except.ok default_manifest ∧
    load_manifest FileState.notJson = Except.ok default_manifest ∧
    ∃ m, load_manifest fs = Except.ok m := by
  refine ⟨rfl, rfl, ?_⟩
  cases fs with
  | missing => exact ⟨default_manifest, rfl⟩
  | notJson => exact ⟨default_manifest, rfl⟩
  | jsonWrongShape => exact absurd rfl h
  | stored docs upd => exact ⟨_, rfl⟩

theorem load_manifest_fail_soft_witness :
    load_manifest FileState.missing = Except.ok default_manifest ∧
    load_manifest FileState.notJson = Except.ok default_manifest ∧
    ∃ m, load_manifest FileState.missing = Except.ok m :=
  load_manifest_fail_soft FileState.missing (by decide)

/-- C6 counterexample: with the download target absent from disk and a
network on which the first GET attempt times out but a second attempt would
return HTTP 200, `download_pdf` returns no document after issuing exactly
one request — it does not retry, contradicting the claim that acquisition
retries up to 3 attempts and gives up only after exhausting them. -/
theorem download_pdf_gives_up_after_one_timeout :
    netTimeoutThenOk 0 = BinResult.timeout ∧
    netTimeoutThenOk 1 = BinResult.ok 200 "pdfbytes" ∧
    (download_pdf netTimeoutThenOk [] urlPdfEx "T1" "M1").1 = none ∧
    (download_pdf netTimeoutThenOk [] urlPdfEx "T1" "M1").2 = [30] := by
  refine ⟨rfl, rfl, ?_, ?_⟩ <;> decide

/-- C6 amended: when the target file name is not already in the download
folder, `download_pdf` issues exactly one GET with a 30-second per-request
timeout; the result depends only on the outcome of that single attempt, and
a timeout (or transport error) makes it return none immediately, without
any retry. -/
theorem download_pdf_single_attempt (net net' : Nat → BinResult) (files : List String)
    (u : Url) (now modTime : String)
    (hcache : files.contains (pdfName u) = false)
    (hfirst : net 0 = net' 0) :
    (download_pdf net files u now modTime).2 = [30] ∧
    download_pdf net files u now modTime = download_pdf net' files u now modTime ∧
    (net 0 = BinResult.timeout → (download_pdf net files u now modTime).1 = none) ∧
    (net 0 = BinResult.connError → (download_pdf net files u now modTime).1 = none) := by
  simp only [download_pdf, hcache, Bool.false_eq_true, if_false]
  rw [hfirst]
  refine ⟨?_, rfl, ?_, ?_⟩
  · cases h : net' 0 with
    | timeout => rfl
    | connError => rfl
    | ok code content =>
      simp only []
      split <;> rfl
  · intro h
    rw [h]
  · intro h
    rw [h]

theorem download_pdf_single_attempt_witness :
    (download_pdf netTimeoutThenOk [] urlPdfEx "T1" "M1").2 = [30] ∧
    download_pdf netTimeoutThenOk [] urlPdfEx "T1" "M1" =
      download_pdf (fun _ => BinResult.timeout) [] urlPdfEx "T1" "M1" ∧
    (netTimeoutThenOk 0 = BinResult.timeout →
      (download_pdf netTimeoutThenOk [] urlPdfEx "T1" "M1").1 = none) ∧
    (netTimeoutThenOk 0 = BinResult.connError →
      (download_pdf netTimeoutThenOk [] urlPdfEx "T1" "M1").1 = none) :=
  download_pdf_single_attempt netTimeoutThenOk (fun _ => BinResult.timeout) [] urlPdfEx
    "T1" "M1" (by decide) (by decide)

/-! ## The indexer: per-file trichotomy and batch counting -/

lemma index_pdf_no_text_eval (disk : Disk) (ext : String → String) (es : EsState)
    (p u : String) (sp da : Option String) (now : String) (g : FileInfo)
    (hg : disk p = some g) (hb : isBlank (ext p) = true) :
    ∃ r, index_pdf disk ext es p u sp da now = (some r, es) ∧
      r.status = some "no_text" ∧ r.indexed = some false := by
  simp only [index_pdf, build_document_metadata, hg, hb, if_true]
  exact ⟨_, rfl, rfl, rfl⟩

lemma index_pdf_duplicate_eval (disk : Disk) (ext : String → String) (es : EsState)
    (p u : String) (sp da : Option String) (now : String) (g : FileInfo)
    (hg : disk p = some g) (hb : isBlank (ext p) = false)
    (he : esExists es g.sha256 = true) :
    ∃ r, index_pdf disk ext es p u sp da now = (some r, es) ∧
      r.status = some "duplicate" ∧ r.indexed = some false := by
  simp only [index_pdf, build_document_metadata, hg, hb, Bool.false_eq_true, if_false,
    Option.getD_some, he, if_true]
  exact ⟨_, rfl, rfl, rfl⟩

lemma index_pdf_indexed_eval (disk : Disk) (ext : String → String) (es : EsState)
    (p u : String) (sp da : Option String) (now : String) (g : FileInfo)
    (hg : disk p = some g) (hb : isBlank (ext p) = false)
    (he : esExists es g.sha256 = false) :
    ∃ r op, index_pdf disk ext es p u sp da now = (some r, es ++ [op]) ∧
      r.status = some "indexed" ∧ r.indexed = some true ∧
      op.refresh = "wait_for" ∧ op.id = g.sha256 := by
  simp only [index_pdf, build_document_metadata, hg, hb, Bool.false_eq_true, if_false,
    Option.getD_some, he]
  exact ⟨_, _, rfl, rfl, rfl, rfl, rfl⟩

lemma index_multiple_go_all_dups (disk : Disk) (ext : String → String) (es : EsState)
    (now : String) :
    ∀ (docs : List IndexInput) (acc : BatchResult),
      (∀ d ∈ docs, ∃ g, disk d.path = some g ∧ isBlank (ext d.path) = false ∧
        esExists es g.sha256 = true) →
      (index_multiple_go disk ext now acc es docs).2 = es ∧
      (index_multiple_go disk ext now acc es docs).1.indexed = acc.indexed ∧
      (index_multiple_go disk ext now acc es docs).1.duplicates
        = acc.duplicates + docs.length := by
  intro docs
  induction docs with
  | nil => intro acc _; exact ⟨rfl, rfl, rfl⟩
  | cons d ds ih =>
    intro acc hall
    obtain ⟨g, hg, hb, he⟩ := hall d (List.mem_cons_self d ds)
    obtain ⟨r, hstep, hstatus, _⟩ :=
      index_pdf_duplicate_eval disk ext es d.path d.url d.source_page d.downloaded_at now g
        hg hb he
    have hds : ∀ d' ∈ ds, ∃ g', disk d'.path = some g' ∧ isBlank (ext d'.path) = false ∧
        esExists es g'.sha256 = true :=
      fun d' hd' => hall d' (List.mem_cons_of_mem d hd')
    simp only [index_multiple_go, hstep]
    have hnotidx : ¬(r.status = some "indexed") := by
      rw [hstatus]; simp
    rw [if_neg hnotidx, if_pos hstatus]
    have h := ih ({ acc with documents := acc.documents ++ [r], duplicates := acc.duplicates + 1 } : BatchResult) hds
    refine ⟨h.1, h.2.1, ?_⟩
    rw [h.2.2]
    simp [List.length_cons]
    omega

/-- C4: for a file that exists on disk, `index_pdf` returns status `no_text`
and leaves the engine untouched when the extracted text is blank; returns
status `duplicate` and leaves the engine untouched when the content hash
already exists in the engine; and otherwise upserts exactly one document
with the `refresh="wait_for"` write mode (read-after-write visibility) under
the content hash, returning status `indexed`.  Consequently re-running
`index_multiple` on a batch of N already-indexed documents yields
`indexed = 0` and `duplicates = N` and writes nothing. -/
theorem index_pdf_trichotomy_and_reindex (disk : Disk) (ext : String → String)
    (es : EsState) (p u : String) (sp da : Option String) (now : String)
    (fi : FileInfo) (hdisk : disk p = some fi) :
    (isBlank (ext p) = true →
      ∃ r, index_pdf disk ext es p u sp da now = (some r, es) ∧
        r.status = some "no_text")
    ∧ (isBlank (ext p) = false → esExists es fi.sha256 = true →
        ∃ r, index_pdf disk ext es p u sp da now = (some r, es) ∧
          r.status = some "duplicate")
    ∧ (isBlank (ext p) = false → esExists es fi.sha256 = false →
        ∃ r op, index_pdf disk ext es p u sp da now = (some r, es ++ [op]) ∧
          r.status = some "indexed" ∧ op.refresh = "wait_for" ∧ op.id = fi.sha256)
    ∧ ∀ docs : List IndexInput,
        (∀ d ∈ docs, ∃ g, disk d.path = some g ∧ isBlank (ext d.path) = false ∧
          esExists es g.sha256 = true) →
        (index_multiple disk ext es docs now).1.indexed = 0 ∧
        (index_multiple disk ext es docs now).1.duplicates = docs.length ∧
        (index_multiple disk ext es docs now).2 = es := by
  refine ⟨?_, ?_, ?_, ?_⟩
  · intro hb
    obtain ⟨r, hr, hs, _⟩ :=
      index_pdf_no_text_eval disk ext es p u sp da now fi hdisk hb
    exact ⟨r, hr, hs⟩
  · intro hb he
    obtain ⟨r, hr, hs, _⟩ :=
      index_pdf_duplicate_eval disk ext es p u sp da now fi hdisk hb he
    exact ⟨r, hr, hs⟩
  · intro hb he
    obtain ⟨r, op, hr, hs, _, hrefresh, hid⟩ :=
      index_pdf_indexed_eval disk ext es p u sp da now fi hdisk hb he
    exact ⟨r, op, hr, hs, hrefresh, hid⟩
  · intro docs hall
    have h := index_multiple_go_all_dups disk ext es now docs ⟨0, 0, 0, []⟩ hall
    refine ⟨h.2.1, ?_, h.1⟩
    rw [index_multiple, h.2.2]
    simp

theorem index_pdf_trichotomy_and_reindex_witness :
    (∃ r, index_pdf c4disk c4ext c4esSeed "/docs/a.pdf" "http://a.com/a.pdf" none
        (some "T0") "T1" = (some r, c4esSeed) ∧ r.status = some "duplicate") ∧
    (∃ r op, index_pdf c4disk c4ext [] "/docs/a.pdf" "http://a.com/a.pdf" none
        (some "T0") "T1" = (some r, [] ++ [op]) ∧ r.status = some "indexed" ∧
        op.refresh = "wait_for" ∧ op.id = "cafe01") ∧
    (index_multiple c4disk c4ext c4esSeed c4batch "T1").1.indexed = 0 ∧
    (index_multiple c4disk c4ext c4esSeed c4batch "T1").1.duplicates = c4batch.length ∧
    (index_multiple c4disk c4ext c4esSeed c4batch "T1").2 = c4esSeed := by
  have h1 := index_pdf_trichotomy_and_reindex c4disk c4ext c4esSeed "/docs/a.pdf"
    "http://a.com/a.pdf" none (some "T0") "T1" ⟨"cafe01", 10, "a.pdf", "/abs/docs/a.pdf"⟩
    (by decide)
  have h2 := index_pdf_trichotomy_and_reindex c4disk c4ext ([] : EsState) "/docs/a.pdf"
    "http://a.com/a.pdf" none (some "T0") "T1" ⟨"cafe01", 10, "a.pdf", "/abs/docs/a.pdf"⟩
    (by decide)
  have hbatch := h1.2.2.2 c4batch (by
    intro d hd
    refine ⟨⟨"cafe01", 10, "a.pdf", "/abs/docs/a.pdf"⟩, ?_, ?_, ?_⟩ <;>
      (fin_cases hd <;> decide))
  exact ⟨h1.2.1 (by decide) (by decide), h2.2.2.1 (by decide) (by decide),
    hbatch.1, hbatch.2.1, hbatch.2.2⟩

/-! ## The crawl loop: fetch-once and host-scoping invariants -/

lemma processLink_fields (dl : Url → Option PdfMeta) (allowed : Option (List String))
    (cur : Url) (s : CrawlState) (link : Url) :
    (processLink dl allowed cur s link).fetched = s.fetched ∧
    (processLink dl allowed cur s link).visited = s.visited := by
  unfold processLink
  split
  · exact ⟨rfl, rfl⟩
  · split
    · exact ⟨rfl, rfl⟩
    · split
      · cases dl link <;> exact ⟨rfl, rfl⟩
      · split
        · exact ⟨rfl, rfl⟩
        · exact ⟨rfl, rfl⟩

lemma foldl_processLink_fields (dl : Url → Option PdfMeta)
    (allowed : Option (List String)) (cur : Url) :
    ∀ (links : List Url) (s : CrawlState),
      (links.foldl (processLink dl allowed cur) s).fetched = s.fetched ∧
      (links.foldl (processLink dl allowed cur) s).visited = s.visited := by
  intro links
  induction links with
  | nil => intro s; exact ⟨rfl, rfl⟩
  | cons l ls ih =>
    intro s
    have h1 := processLink_fields dl allowed cur s l
    have h2 := ih (processLink dl allowed cur s l)
    exact ⟨h2.1.trans h1.1, h2.2.trans h1.2⟩

lemma crawlLoop_nodup_inv (net : PageNet) (dl : Url → Option PdfMeta)
    (allowed : Option (List String)) (retries : Nat) :
    ∀ (fuel : Nat) (s : CrawlState),
      s.fetched.Nodup → (∀ u ∈ s.fetched, u ∈ s.visited) →
      (crawlLoop net dl allowed retries fuel s).fetched.Nodup := by
  intro fuel
  induction fuel with
  | zero => intro s h1 _; exact h1
  | succ n ih =>
    intro s h1 h2
    unfold crawlLoop
    rcases hq : s.queue with _ | ⟨current, rest⟩
    · simp only [hq]
      exact h1
    · simp only [hq]
      by_cases hv : current ∈ s.visited
      · rw [if_pos hv]
        exact ih _ h1 h2
      · rw [if_neg hv]
        have hf : current ∉ s.fetched := fun hc => hv (h2 current hc)
        have h1' : (s.fetched ++ [current]).Nodup := by
          simp [List.nodup_append, h1, hf]
        have h2' : ∀ u ∈ s.fetched ++ [current], u ∈ s.visited ++ [current] := by
          intro u hu
          rcases List.mem_append.mp hu with h | h
          · exact List.mem_append.mpr (Or.inl (h2 u h))
          · exact List.mem_append.mpr (Or.inr h)
        cases hr : request_with_retries net current retries 0 with
        | none => exact ih _ h1' h2'
        | some links =>
          have hff := foldl_processLink_fields dl allowed current links
            ({ s with
              queue := rest
              visited := s.visited ++ [current]
              fetched := s.fetched ++ [current] } : CrawlState)
          apply ih
          · rw [hff.1]; exact h1'
          · intro u hu
            rw [hff.1] at hu
            rw [hff.2]
            exact h2' u hu

/-- C8: within a single crawl run no URL is fetched twice — the trace of
URLs handed to `_request_with_retries` by the dequeue-and-fetch loop has no
duplicates, for every network, downloader, scoping set, retry budget and
fuel bound, regardless of how often a URL gets discovered and enqueued. -/
theorem crawl_no_url_fetched_twice (net : PageNet) (dl : Url → Option PdfMeta)
    (start : Url) (fuel retries : Nat) (allowed_hosts : List String) :
    (crawl_and_download net dl start fuel retries allowed_hosts).fetched.Nodup := by
  apply crawlLoop_nodup_inv
  · exact List.nodup_nil
  · intro u hu
    exact absurd hu (List.not_mem_nil u)

lemma buildAllowedList_len (hosts : List String) :
    ∀ acc : List String,
      acc.length ≤ (hosts.foldl (fun acc h =>
        let lowered := lowerStr h
        let acc := acc ++ [lowered]
        if lowered.data.contains ':' then acc ++ [beforeColon lowered] else acc) acc).length := by
  induction hosts with
  | nil => intro acc; exact le_refl _
  | cons h t ih =>
    intro acc
    refine le_trans ?_ (ih _)
    dsimp only
    split <;> simp

lemma buildAllowedList_ne_nil (hosts : List String) (h : hosts ≠ []) :
    buildAllowedList hosts ≠ [] := by
  cases hosts with
  | nil => exact absurd rfl h
  | cons x t =>
    intro hc
    have hlen := buildAllowedList_len t
      (if (lowerStr x).data.contains ':'
        then [lowerStr x] ++ [beforeColon (lowerStr x)] else [lowerStr x])
    rw [buildAllowedList] at hc
    simp only [List.foldl_cons] at hc
    rw [show (([] : List String) ++ [lowerStr x]) = [lowerStr x] by simp] at hc
    rw [hc] at hlen
    simp at hlen
    split at hlen <;> simp_all

lemma rejectHost_false_mem (l : List String) (hl : l ≠ []) (u : Url)
    (h : rejectHost (some l) u = false) :
    u.netlocLower ∈ l ∨ u.hostnameLower ∈ l := by
  simp only [rejectHost] at h
  by_contra hc
  push_neg at hc
  have h1 : l.contains u.netlocLower = false := by simpa using hc.1
  have h2 : l.contains u.hostnameLower = false := by simpa using hc.2
  have h3 : l.isEmpty = false := by simpa using hl
  rw [h1, h2, h3] at h
  simp at h

lemma processLink_scope_inv (dl : Url → Option PdfMeta) (l : List String)
    (hl : l ≠ []) (cur start : Url) (s : CrawlState) (link : Url)
    (hq : ∀ u ∈ s.queue, u = start ∨ (u.netlocLower ∈ l ∨ u.hostnameLower ∈ l))
    (ha : ∀ u ∈ s.acquired, u.netlocLower ∈ l ∨ u.hostnameLower ∈ l) :
    (∀ u ∈ (processLink dl (some l) cur s link).queue,
      u = start ∨ (u.netlocLower ∈ l ∨ u.hostnameLower ∈ l)) ∧
    (∀ u ∈ (processLink dl (some l) cur s link).acquired,
      u.netlocLower ∈ l ∨ u.hostnameLower ∈ l) := by
  unfold processLink
  split
  · exact ⟨hq, ha⟩
  · split
    · exact ⟨hq, ha⟩
    · rename_i hreject
      have hrf : rejectHost (some l) link = false := by
        revert hreject
        cases rejectHost (some l) link <;> simp
      have hmem := rejectHost_false_mem l hl link hrf
      split
      · have hacq : ∀ u ∈ s.acquired ++ [link],
            u.netlocLower ∈ l ∨ u.hostnameLower ∈ l := by
          intro u hu
          rcases List.mem_append.mp hu with h | h
          · exact ha u h
          · rw [List.mem_singleton.mp h]
            exact hmem
        cases dl link
        · exact ⟨hq, hacq⟩
        · exact ⟨hq, hacq⟩
      · split
        · exact ⟨hq, ha⟩
        · refine ⟨?_, ha⟩
          intro u hu
          rcases List.mem_append.mp hu with h | h
          · exact hq u h
          · rw [List.mem_singleton.mp h]
            exact Or.inr hmem

lemma foldl_processLink_scope (dl : Url → Option PdfMeta) (l : List String)
    (hl : l ≠ []) (cur start : Url) :
    ∀ (links : List Url) (s : CrawlState),
      (∀ u ∈ s.queue, u = start ∨ (u.netlocLower ∈ l ∨ u.hostnameLower ∈ l)) →
      (∀ u ∈ s.acquired, u.netlocLower ∈ l ∨ u.hostnameLower ∈ l) →
      (∀ u ∈ (links.foldl (processLink dl (some l) cur) s).queue,
        u = start ∨ (u.netlocLower ∈ l ∨ u.hostnameLower ∈ l)) ∧
      (∀ u ∈ (links.foldl (processLink dl (some l) cur) s).acquired,
        u.netlocLower ∈ l ∨ u.hostnameLower ∈ l) := by
  intro links
  induction links with
  | nil => intro s hq ha; exact ⟨hq, ha⟩
  | cons x xs ih =>
    intro s hq ha
    have h := processLink_scope_inv dl l hl cur start s x hq ha
    exact ih _ h.1 h.2

lemma crawlLoop_scope_inv (net : PageNet) (dl : Url → Option PdfMeta)
    (l : List String) (hl : l ≠ []) (retries : Nat) (start : Url) :
    ∀ (fuel : Nat) (s : CrawlState),
      (∀ u ∈ s.queue, u = start ∨ (u.netlocLower ∈ l ∨ u.hostnameLower ∈ l)) →
      (∀ u ∈ s.fetched, u = start ∨ (u.netlocLower ∈ l ∨ u.hostnameLower ∈ l)) →
      (∀ u ∈ s.acquired, u.netlocLower ∈ l ∨ u.hostnameLower ∈ l) →
      (∀ u ∈ (crawlLoop net dl (some l) retries fuel s).fetched,
        u = start ∨ (u.netlocLower ∈ l ∨ u.hostnameLower ∈ l)) ∧
      (∀ u ∈ (crawlLoop net dl (some l) retries fuel s).acquired,
        u.netlocLower ∈ l ∨ u.hostnameLower ∈ l) := by
  intro fuel
  induction fuel with
  | zero => intro s _ hf ha; exact ⟨hf, ha⟩
  | succ n ih =>
    intro s hq hf ha
    unfold crawlLoop
    rcases hqq : s.queue with _ | ⟨current, rest⟩
    · simp only [hqq]
      exact ⟨hf, ha⟩
    · simp only [hqq]
      have hqrest : ∀ u ∈ rest, u = start ∨ (u.netlocLower ∈ l ∨ u.hostnameLower ∈ l) :=
        fun u hu => hq u (hqq ▸ List.mem_cons_of_mem current hu)
      have hcur : current = start ∨ (current.netlocLower ∈ l ∨ current.hostnameLower ∈ l) :=
        hq current (hqq ▸ List.mem_cons_self current rest)
      by_cases hv : current ∈ s.visited
      · rw [if_pos hv]
        exact ih _ hqrest hf ha
      · rw [if_neg hv]
        have hf' : ∀ u ∈ s.fetched ++ [current],
            u = start ∨ (u.netlocLower ∈ l ∨ u.hostnameLower ∈ l) := by
          intro u hu
          rcases List.mem_append.mp hu with h | h
          · exact hf u h
          · rw [List.mem_singleton.mp h]
            exact hcur
        cases hr : request_with_retries net current retries 0 with
        | none => exact ih _ hqrest hf' ha
        | some links =>
          have hflds := foldl_processLink_fields dl (some l) current links
            ({ s with
              queue := rest
              visited := s.visited ++ [current]
              fetched := s.fetched ++ [current] } : CrawlState)
          have hscope := foldl_processLink_scope dl l hl current start links
            ({ s with
              queue := rest
              visited := s.visited ++ [current]
              fetched := s.fetched ++ [current] } : CrawlState) hqrest ha
          refine ih _ hscope.1 ?_ hscope.2
          rw [hflds.1]
          exact hf'

/-- C9: when `allowedHosts` is supplied (nonempty), every URL the crawl
routes to acquisition has its netloc or lowercased hostname in the built
allowed set (host with or without port), and every URL fetched by the loop
other than the start URL does too — a discovered URL on a foreign host is
never fetched.  On the concrete graph A → B, A → D(external), B → C.pdf
with `allowedHosts = {host(A)}`, the crawl downloads exactly C.pdf
(discovered on B) and never fetches D. -/
theorem crawl_host_scoping (net : PageNet) (dl : Url → Option PdfMeta)
    (start : Url) (fuel retries : Nat) (hosts : List String) (hne : hosts ≠ []) :
    ((∀ u ∈ (crawl_and_download net dl start fuel retries hosts).acquired,
        u.netlocLower ∈ buildAllowedList hosts ∨ u.hostnameLower ∈ buildAllowedList hosts)
    ∧ (∀ u ∈ (crawl_and_download net dl start fuel retries hosts).fetched,
        u = start ∨ (u.netlocLower ∈ buildAllowedList hosts ∨
          u.hostnameLower ∈ buildAllowedList hosts)))
    ∧ (crawl_and_download exNet exDl exA 10 3 ["a.com"]).downloaded
        = [⟨exC, "c.pdf", "c.pdf", "T", some exB⟩]
    ∧ (crawl_and_download exNet exDl exA 10 3 ["a.com"]).fetched = [exA, exB]
    ∧ exD ∉ (crawl_and_download exNet exDl exA 10 3 ["a.com"]).fetched := by
  have hb : buildAllowed hosts = some (buildAllowedList hosts) := by
    unfold buildAllowed
    rw [if_neg]
    simpa using hne
  have h := crawlLoop_scope_inv net dl (buildAllowedList hosts)
    (buildAllowedList_ne_nil hosts hne) retries start fuel
    ⟨[], [start], [], [], []⟩
    (by intro u hu; exact Or.inl (List.mem_singleton.mp hu))
    (by intro u hu; exact absurd hu (List.not_mem_nil u))
    (by intro u hu; exact absurd hu (List.not_mem_nil u))
  refine ⟨⟨?_, ?_⟩, by decide, by decide, by decide⟩
  · intro u hu
    rw [crawl_and_download, hb] at hu
    exact h.2 u hu
  · intro u hu
    rw [crawl_and_download, hb] at hu
    exact h.1 u hu

theorem crawl_host_scoping_witness :
    ((∀ u ∈ (crawl_and_download exNet exDl exA 10 3 ["a.com"]).acquired,
        u.netlocLower ∈ buildAllowedList ["a.com"] ∨
          u.hostnameLower ∈ buildAllowedList ["a.com"])
    ∧ (∀ u ∈ (crawl_and_download exNet exDl exA 10 3 ["a.com"]).fetched,
        u = exA ∨ (u.netlocLower ∈ buildAllowedList ["a.com"] ∨
          u.hostnameLower ∈ buildAllowedList ["a.com"])))
    ∧ (crawl_and_download exNet exDl exA 10 3 ["a.com"]).downloaded
        = [⟨exC, "c.pdf", "c.pdf", "T", some exB⟩]
    ∧ (crawl_and_download exNet exDl exA 10 3 ["a.com"]).fetched = [exA, exB]
    ∧ exD ∉ (crawl_and_download exNet exDl exA 10 3 ["a.com"]).fetched :=
  crawl_host_scoping exNet exDl exA 10 3 ["a.com"] (by decide)

/-! ## Ordered-map (Python dict) lemmas for the manifest ledger -/

lemma assocGet_set_self (m : List (String × Rec)) (k : String) (v : Rec) :
    assocGet (assocSet m k v) k = some v := by
  induction m with
  | nil => simp [assocSet, assocGet]
  | cons p rest ih =>
    obtain ⟨k', v'⟩ := p
    by_cases h : k' = k
    · simp [assocSet, assocGet, h]
    · simp [assocSet, assocGet, h, ih]

lemma assocGet_set_ne (m : List (String × Rec)) (k' k : String) (v : Rec)
    (h : k' ≠ k) : assocGet (assocSet m k' v) k = assocGet m k := by
  induction m with
  | nil => simp [assocSet, assocGet, h]
  | cons p rest ih =>
    obtain ⟨k0, v0⟩ := p
    by_cases h0 : k0 = k'
    · simp [assocSet, assocGet, h0, h]
    · by_cases h1 : k0 = k
      · simp [assocSet, assocGet, h0, h1, Ne.symm h]
      · simp [assocSet, assocGet, h0, h1, ih]

lemma mem_of_assocGet (m : List (String × Rec)) (k : String) (v : Rec)
    (h : assocGet m k = some v) : (k, v) ∈ m := by
  induction m with
  | nil => simp [assocGet] at h
  | cons p rest ih =>
    obtain ⟨k0, v0⟩ := p
    by_cases h0 : k0 = k
    · simp [assocGet, h0] at h
      subst h0
      rw [h]
      exact List.mem_cons_self _ _
    · simp only [assocGet, h0, if_false] at h
      exact List.mem_cons_of_mem _ (ih h)

lemma assocGet_of_mem_nodup (m : List (String × Rec)) (k : String) (v : Rec)
    (hnd : (m.map Prod.fst).Nodup) (h : (k, v) ∈ m) : assocGet m k = some v := by
  induction m with
  | nil => simp at h
  | cons p rest ih =>
    obtain ⟨k0, v0⟩ := p
    simp only [List.map_cons, List.nodup_cons] at hnd
    rcases List.mem_cons.mp h with h1 | h1
    · injection h1 with hk hv
      simp [assocGet, hk.symm, hv]
    · have hne : k0 ≠ k := by
        intro hc
        subst hc
        exact hnd.1 (List.mem_map.mpr ⟨(k0, v), h1, rfl⟩)
      simp only [assocGet, hne, if_false]
      exact ih hnd.2 h1

lemma assocSet_keys_sub (m : List (String × Rec)) (k : String) (v : Rec) :
    ∀ k', k' ∈ (assocSet m k v).map Prod.fst → k' = k ∨ k' ∈ m.map Prod.fst := by
  induction m with
  | nil => simp [assocSet]
  | cons p rest ih =>
    obtain ⟨k0, v0⟩ := p
    intro k' h
    by_cases h0 : k0 = k
    · simp [assocSet, h0] at h
      rcases h with h | h
      · exact Or.inl h
      · exact Or.inr (by simp [h])
    · simp [assocSet, h0] at h
      rcases h with h | h
      · exact Or.inr (by simp [h])
      · rcases ih k' (by simpa using h) with h2 | h2
        · exact Or.inl h2
        · exact Or.inr (by simp [h2])

lemma assocSet_nodup_keys (m : List (String × Rec)) (k : String) (v : Rec)
    (hnd : (m.map Prod.fst).Nodup) : ((assocSet m k v).map Prod.fst).Nodup := by
  induction m with
  | nil => simp [assocSet]
  | cons p rest ih =>
    obtain ⟨k0, v0⟩ := p
    simp only [List.map_cons, List.nodup_cons] at hnd
    by_cases h0 : k0 = k
    · subst h0
      have hset : assocSet ((k0, v0) :: rest) k0 v = (k0, v) :: rest := by
        simp [assocSet]
      rw [hset]
      simp only [List.map_cons, List.nodup_cons]
      exact ⟨hnd.1, hnd.2⟩
    · have hset : assocSet ((k0, v0) :: rest) k v = (k0, v0) :: assocSet rest k v := by
        simp [assocSet, h0]
      rw [hset]
      simp only [List.map_cons, List.nodup_cons]
      refine ⟨?_, ih hnd.2⟩
      intro hc
      rcases assocSet_keys_sub rest k v k0 hc with h | h
      · exact h0 h
      · exact hnd.1 h

lemma assocSet_mem_vals (m : List (String × Rec)) (k : String) (v : Rec) :
    ∀ p, p ∈ assocSet m k v → p = (k, v) ∨ p ∈ m := by
  induction m with
  | nil => simp [assocSet]
  | cons q rest ih =>
    obtain ⟨k0, v0⟩ := q
    intro p h
    by_cases h0 : k0 = k
    · simp [assocSet, h0] at h
      rcases h with h | h
      · exact Or.inl (by simp [h])
      · exact Or.inr (List.mem_cons_of_mem _ h)
    · simp [assocSet, h0] at h
      rcases h with h | h
      · exact Or.inr (by simp [h])
      · rcases ih p (by simpa using h) with h2 | h2
        · exact Or.inl h2
        · exact Or.inr (List.mem_cons_of_mem _ h2)

lemma assocSet_of_not_mem (m : List (String × Rec)) (k : String) (v : Rec)
    (h : k ∉ m.map Prod.fst) : assocSet m k v = m ++ [(k, v)] := by
  induction m with
  | nil => simp [assocSet]
  | cons p rest ih =>
    obtain ⟨k0, v0⟩ := p
    simp only [List.map_cons, List.mem_cons] at h
    push_neg at h
    simp [assocSet, Ne.symm h.1]
    exact ih h.2

lemma mergeRecord_sha256 (c r : Rec) :
    (mergeRecord c r).sha256 = pick r.sha256 c.sha256 := by
  rw [mergeRecord_eq]

lemma mergeRecord_id (c r : Rec) :
    (mergeRecord c r).id = pick r.id c.id := by
  rw [mergeRecord_eq]

lemma truthyStr_eq_some (x : Option String) (k : String) :
    truthyStr x = some k ↔ x = some k ∧ k ≠ "" := by
  cases x with
  | none => simp [truthyStr]
  | some s =>
    by_cases hs : s = ""
    · subst hs
      simp only [truthyStr, if_pos rfl]
      constructor
      · intro h; exact absurd h (by simp)
      · rintro ⟨h1, h2⟩
        injection h1 with h1
        exact absurd h1.symm h2
    · simp only [truthyStr, if_neg hs]
      constructor
      · intro h
        injection h with h
        exact ⟨by rw [h], fun hc => hs (h.trans hc)⟩
      · exact And.left

lemma keyOf_merge (c r : Rec) (k : String)
    (hc : keyOf c = some k ∨ c = emptyRec) (hr : keyOf r = some k) :
    keyOf (mergeRecord c r) = some k := by
  unfold keyOf at hr ⊢
  rw [mergeRecord_sha256, mergeRecord_id]
  cases hrs : truthyStr r.sha256 with
  | some s =>
    simp only [hrs] at hr
    injection hr with hk
    subst hk
    obtain ⟨hsha, hne⟩ := (truthyStr_eq_some _ _).mp hrs
    rw [hsha]
    simp [pick, truthyStr, hne]
  | none =>
    simp only [hrs] at hr
    obtain ⟨hid, hkne⟩ := (truthyStr_eq_some _ _).mp hr
    have hpick : truthyStr (pick r.id c.id) = some k := by
      rw [hid]
      simp [pick, truthyStr, hkne]
    cases hS : truthyStr (pick r.sha256 c.sha256) with
    | none =>
      simp only [hS]
      exact hpick
    | some t =>
      obtain ⟨hps, htne⟩ := (truthyStr_eq_some _ _).mp hS
      cases hrs2 : r.sha256 with
      | some s2 =>
        have hs2 : s2 = "" := by
          by_contra hcon
          rw [hrs2] at hrs
          simp [truthyStr, hcon] at hrs
        rw [hrs2, hs2] at hps
        simp only [pick] at hps
        injection hps with hps
        exact absurd hps.symm htne
      | none =>
        rw [hrs2] at hps
        simp only [pick] at hps
        rcases hc with hc | hc
        · unfold keyOf at hc
          have hct : truthyStr c.sha256 = some t := by
            rw [hps]
            simp [truthyStr, htne]
          simp only [hct] at hc
          injection hc with hk2
          simp only [hS]
          rw [hk2]
        · rw [hc] at hps
          simp [emptyRec] at hps

lemma loadFix_of_some (d : Rec) (hs : d.status.isSome = true)
    (hi : d.indexed.isSome = true) : loadFix d = d := by
  obtain ⟨n, p, u, sp, da, sz, sh, i, st, ix⟩ := d
  cases st with
  | none => simp at hs
  | some s =>
    cases ix with
    | none => simp at hi
    | some b => rfl

lemma loadFix_status_isSome (d : Rec) : ((loadFix d).status).isSome = true := by
  obtain ⟨n, p, u, sp, da, sz, sh, i, st, ix⟩ := d
  cases st <;> cases ix <;> rfl

lemma loadFix_indexed_isSome (d : Rec) : ((loadFix d).indexed).isSome = true := by
  obtain ⟨n, p, u, sp, da, sz, sh, i, st, ix⟩ := d
  cases st <;> cases ix <;> rfl

lemma loadFix_idem (d : Rec) : loadFix (loadFix d) = loadFix d :=
  loadFix_of_some _ (loadFix_status_isSome d) (loadFix_indexed_isSome d)

lemma loadFix_merge (c r : Rec) : loadFix (mergeRecord c r) = mergeRecord c r := by
  apply loadFix_of_some
  · rw [mergeRecord_eq]
    exact mergedStatusVal_isSome c r
  · rw [mergeRecord_eq]
    exact mergedIndexedVal_isSome c r

lemma map_loadFix_id (l : List Rec) (h : ∀ d ∈ l, loadFix d = d) :
    l.map loadFix = l := by
  induction l with
  | nil => rfl
  | cons d t ih =>
    rw [List.map_cons, h d (List.mem_cons_self d t),
      ih (fun d' hd' => h d' (List.mem_cons_of_mem d hd'))]

lemma insertDesc_perm (a : Rec) (l : List Rec) : (insertDesc a l).Perm (a :: l) := by
  induction l with
  | nil => exact List.Perm.refl _
  | cons b bs ih =>
    unfold insertDesc
    split
    · exact List.Perm.refl _
    · exact (ih.cons b).trans (List.Perm.swap a b bs)

lemma sortDocs_aux_perm (l : List Rec) :
    ∀ acc : List Rec, (l.foldl (fun acc a => insertDesc a acc) acc).Perm (acc ++ l) := by
  induction l with
  | nil => intro acc; simp
  | cons a t ih =>
    intro acc
    refine ((ih (insertDesc a acc)).trans ?_)
    have h1 : (insertDesc a acc ++ t).Perm ((a :: acc) ++ t) :=
      (insertDesc_perm a acc).append_right t
    refine h1.trans ?_
    simp only [List.cons_append]
    exact List.perm_middle.symm.trans (List.Perm.refl _) |>.symm.symm

lemma sortDocs_perm (l : List Rec) : (sortDocs l).Perm l := by
  have h := sortDocs_aux_perm l []
  simpa [sortDocs] using h

lemma vals_filterMap_keyOf (M : List (String × Rec))
    (h : ∀ p ∈ M, keyOf p.2 = some p.1) :
    (mapValues M).filterMap keyOf = M.map Prod.fst := by
  induction M with
  | nil => rfl
  | cons p rest ih =>
    obtain ⟨k, v⟩ := p
    have hk : keyOf v = some k := h (k, v) (List.mem_cons_self _ _)
    simp only [mapValues, List.map_cons, List.filterMap_cons, hk, List.map_cons]
    rw [← ih (fun q hq => h q (List.mem_cons_of_mem _ hq))]
    rfl

lemma filterMap_eq_map_getD (l : List Rec) (h : ∀ d ∈ l, (keyOf d).isSome = true) :
    l.filterMap keyOf = l.map (fun d => (keyOf d).getD "") := by
  induction l with
  | nil => rfl
  | cons d t ih =>
    obtain ⟨k, hk⟩ := Option.isSome_iff_exists.mp (h d (List.mem_cons_self d t))
    simp only [List.filterMap_cons, hk, List.map_cons, Option.getD_some]
    rw [ih (fun d' hd' => h d' (List.mem_cons_of_mem d hd'))]

lemma buildByHash_all_keys (ds : List Rec) :
    ∀ acc : List (String × Rec),
      (∀ d ∈ ds, (keyOf d).isSome = true) →
      ((acc.map Prod.fst) ++ ds.filterMap keyOf).Nodup →
      ds.foldl (fun acc d =>
        match keyOf d with
        | none => acc
        | some k => assocSet acc k d) acc
        = acc ++ ds.map (fun d => ((keyOf d).getD "", d)) := by
  induction ds with
  | nil => intro acc _ _; simp
  | cons d t ih =>
    intro acc hsome hnd
    obtain ⟨k, hk⟩ := Option.isSome_iff_exists.mp (hsome d (List.mem_cons_self d t))
    simp only [List.filterMap_cons, hk] at hnd
    have hknotin : k ∉ acc.map Prod.fst := by
      intro hc
      have := (List.nodup_append.mp hnd).2.2
      exact this hc (List.mem_cons_self k _)
    simp only [List.foldl_cons, hk]
    rw [assocSet_of_not_mem acc k d hknotin]
    have hnd' : (((acc ++ [(k, d)]).map Prod.fst) ++ t.filterMap keyOf).Nodup := by
      simp only [List.map_append, List.map_cons, List.map_nil]
      rw [List.append_assoc]
      simpa using hnd
    rw [ih (acc ++ [(k, d)]) (fun d' hd' => hsome d' (List.mem_cons_of_mem d hd')) hnd']
    simp [hk]

lemma get_rebuild (M : List (String × Rec))
    (hnd : (M.map Prod.fst).Nodup) (hinv : ∀ p ∈ M, keyOf p.2 = some p.1)
    (k : String) (m : Rec) (hget : assocGet M k = some m) :
    assocGet (buildByHash (sortDocs (mapValues M))) k = some m := by
  have hperm : (sortDocs (mapValues M)).Perm (mapValues M) := sortDocs_perm _
  have hsome : ∀ d ∈ sortDocs (mapValues M), (keyOf d).isSome = true := by
    intro d hd
    have hd' : d ∈ mapValues M := hperm.mem_iff.mp hd
    obtain ⟨p, hp, hsnd⟩ := List.mem_map.mp hd'
    rw [← hsnd, hinv p hp]
    rfl
  have hfm : ((sortDocs (mapValues M)).filterMap keyOf).Perm (M.map Prod.fst) := by
    rw [← vals_filterMap_keyOf M hinv]
    exact hperm.filterMap keyOf
  have hndD : ((([] : List (String × Rec)).map Prod.fst) ++
      (sortDocs (mapValues M)).filterMap keyOf).Nodup := by
    simp only [List.map_nil, List.nil_append]
    exact hfm.nodup_iff.mpr hnd
  have hbuild : buildByHash (sortDocs (mapValues M)) =
      (sortDocs (mapValues M)).map (fun d => ((keyOf d).getD "", d)) := by
    have h := buildByHash_all_keys (sortDocs (mapValues M)) [] hsome hndD
    simpa [buildByHash] using h
  have hmem : (k, m) ∈ M := mem_of_assocGet _ _ _ hget
  have hkm : keyOf m = some k := hinv (k, m) hmem
  have hmD : m ∈ sortDocs (mapValues M) :=
    hperm.mem_iff.mpr (List.mem_map.mpr ⟨(k, m), hmem, rfl⟩)
  have hpair : (k, m) ∈ buildByHash (sortDocs (mapValues M)) := by
    rw [hbuild]
    exact List.mem_map.mpr ⟨m, hmD, by rw [hkm]; rfl⟩
  have hndB : ((buildByHash (sortDocs (mapValues M))).map Prod.fst).Nodup := by
    rw [hbuild]
    simp only [List.map_map]
    have heq : ((sortDocs (mapValues M)).map
        ((fun p => Prod.fst p) ∘ (fun d => ((keyOf d).getD "", d))))
        = (sortDocs (mapValues M)).filterMap keyOf := by
      rw [filterMap_eq_map_getD _ hsome]
      rfl
    rw [heq]
    exact hfm.nodup_iff.mpr hnd
  exact assocGet_of_mem_nodup _ _ _ hndB hpair

lemma merge_ne_empty (c r : Rec) : mergeRecord c r ≠ emptyRec := by
  intro h
  have h1 : ((mergeRecord c r).status).isSome = true := by
    rw [mergeRecord_eq]
    exact mergedStatusVal_isSome c r
  rw [h] at h1
  simp [emptyRec] at h1

lemma buildByHash_aux (docs : List Rec) :
    ∀ acc : List (String × Rec), (acc.map Prod.fst).Nodup →
      (((docs.foldl (fun acc d =>
        match keyOf d with
        | none => acc
        | some k => assocSet acc k d) acc).map Prod.fst).Nodup ∧
      ∀ p ∈ docs.foldl (fun acc d =>
        match keyOf d with
        | none => acc
        | some k => assocSet acc k d) acc,
        (keyOf p.2 = some p.1 ∧ p.2 ∈ docs) ∨ p ∈ acc) := by
  induction docs with
  | nil => intro acc hnd; exact ⟨hnd, fun p hp => Or.inr hp⟩
  | cons d t ih =>
    intro acc hnd
    simp only [List.foldl_cons]
    cases hk : keyOf d with
    | none =>
      have h := ih acc hnd
      refine ⟨h.1, fun p hp => ?_⟩
      rcases h.2 p hp with h2 | h2
      · exact Or.inl ⟨h2.1, List.mem_cons_of_mem d h2.2⟩
      · exact Or.inr h2
    | some k =>
      have h := ih (assocSet acc k d) (assocSet_nodup_keys acc k d hnd)
      refine ⟨h.1, fun p hp => ?_⟩
      rcases h.2 p hp with h2 | h2
      · exact Or.inl ⟨h2.1, List.mem_cons_of_mem d h2.2⟩
      · rcases assocSet_mem_vals acc k d p h2 with h3 | h3
        · rw [h3]
          exact Or.inl ⟨hk, List.mem_cons_self d t⟩
        · exact Or.inr h3

lemma buildByHash_nodup (docs : List Rec) :
    ((buildByHash docs).map Prod.fst).Nodup :=
  (buildByHash_aux docs [] (by simp)).1

lemma buildByHash_inv (docs : List Rec) :
    ∀ p ∈ buildByHash docs, keyOf p.2 = some p.1 ∧ p.2 ∈ docs := by
  intro p hp
  rcases (buildByHash_aux docs [] (by simp)).2 p hp with h | h
  · exact h
  · simp at h

lemma applyRecords_singleton (m : List (String × Rec)) (r : Rec) :
    applyRecords m [r] =
      match keyOf r with
      | none => (m, false)
      | some k =>
        if (assocGet m k).getD emptyRec
            = mergeRecord ((assocGet m k).getD emptyRec) r then (m, false)
        else (assocSet m k (mergeRecord ((assocGet m k).getD emptyRec) r), true) := by
  simp only [applyRecords, List.foldl_cons, List.foldl_nil]

lemma load_docs_fixed (fs : FileState) (existing : Manifest)
    (h : load_manifest fs = Except.ok existing) :
    ∀ d ∈ existing.documents, loadFix d = d := by
  cases fs with
  | missing =>
    intro d hd
    simp only [load_manifest] at h
    injection h with h
    rw [← h] at hd
    simp [default_manifest] at hd
  | notJson =>
    intro d hd
    simp only [load_manifest] at h
    injection h with h
    rw [← h] at hd
    simp [default_manifest] at hd
  | jsonWrongShape => simp [load_manifest] at h
  | stored docs upd =>
    intro d hd
    simp only [load_manifest] at h
    injection h with h
    rw [← h] at hd
    obtain ⟨x, _, hx⟩ := List.mem_map.mp hd
    rw [← hx]
    exact loadFix_idem x

lemma second_apply_no_change (M1 : List (String × Rec)) (r : Rec)
    (hnd : (M1.map Prod.fst).Nodup) (hinv : ∀ p ∈ M1, keyOf p.2 = some p.1)
    (hfix : ∀ k, keyOf r = some k →
      ∃ c, assocGet M1 k = some c ∧ mergeRecord c r = c) :
    applyRecords (buildByHash (sortDocs (mapValues M1))) [r]
      = (buildByHash (sortDocs (mapValues M1)), false) := by
  rw [applyRecords_singleton]
  cases hk : keyOf r with
  | none => rfl
  | some k =>
    obtain ⟨c, hget, hmerge⟩ := hfix k hk
    have hget2 := get_rebuild M1 hnd hinv k c hget
    dsimp only
    rw [hget2]
    simp [Option.getD_some, hmerge]

lemma first_apply_facts (B0 : List (String × Rec)) (r : Rec)
    (hnd : (B0.map Prod.fst).Nodup)
    (hinv : ∀ p ∈ B0, keyOf p.2 = some p.1)
    (hfixed : ∀ v ∈ mapValues B0, loadFix v = v) :
    (((applyRecords B0 [r]).1.map Prod.fst).Nodup)
    ∧ (∀ p ∈ (applyRecords B0 [r]).1, keyOf p.2 = some p.1)
    ∧ (∀ v ∈ mapValues (applyRecords B0 [r]).1, loadFix v = v)
    ∧ (∀ k, keyOf r = some k →
        ∃ c, assocGet (applyRecords B0 [r]).1 k = some c ∧ mergeRecord c r = c) := by
  rw [applyRecords_singleton]
  cases hk : keyOf r with
  | none =>
    dsimp only
    refine ⟨hnd, hinv, hfixed, ?_⟩
    intro k hkk
    exact Option.noConfusion hkk
  | some k =>
    dsimp only
    by_cases heq : (assocGet B0 k).getD emptyRec
        = mergeRecord ((assocGet B0 k).getD emptyRec) r
    · rw [if_pos heq]
      dsimp only
      refine ⟨hnd, hinv, hfixed, ?_⟩
      intro k' hkk
      injection hkk with hkk
      subst hkk
      cases hget : assocGet B0 k with
      | none =>
        rw [hget] at heq
        simp only [Option.getD_none] at heq
        exact absurd heq.symm (merge_ne_empty emptyRec r)
      | some c =>
        rw [hget] at heq
        simp only [Option.getD_some] at heq
        exact ⟨c, rfl, heq.symm⟩
    · rw [if_neg heq]
      dsimp only
      have hkm : keyOf (mergeRecord ((assocGet B0 k).getD emptyRec) r) = some k := by
        apply keyOf_merge _ _ k _ hk
        cases hget : assocGet B0 k with
        | none => exact Or.inr rfl
        | some c =>
          left
          simp only [Option.getD_some]
          exact hinv (k, c) (mem_of_assocGet _ _ _ hget)
      refine ⟨assocSet_nodup_keys _ _ _ hnd, ?_, ?_, ?_⟩
      · intro p hp
        rcases assocSet_mem_vals _ _ _ p hp with h1 | h1
        · rw [h1]
          exact hkm
        · exact hinv p h1
      · intro v hv
        simp only [mapValues] at hv
        obtain ⟨p, hp, hsnd⟩ := List.mem_map.mp hv
        rcases assocSet_mem_vals _ _ _ p hp with h1 | h1
        · rw [← hsnd, h1]
          exact loadFix_merge _ _
        · rw [← hsnd]
          exact hfixed p.2 (by simp only [mapValues]; exact List.mem_map.mpr ⟨p, h1, rfl⟩)
      · intro k' hkk
        injection hkk with hkk
        subst hkk
        exact ⟨_, assocGet_set_self _ _ _, mergeRecord_idem _ _⟩

/-- C5: `update_manifest` is idempotent — if applying `update` with record
`r` once yields the ledger state `fs1` and manifest `m1`, then applying it a
second time (with any later timestamp) performs no write and returns exactly
the same ledger state and the same manifest, including its document set and
`updated_at` (so the second call is the skip-the-write no-op: nothing
changed and the ledger file exists). -/
theorem update_manifest_idempotent (fs fs1 : FileState) (r : Rec) (m1 : Manifest)
    (now now2 : String)
    (h : update_manifest fs [r] now = Except.ok (fs1, m1)) :
    update_manifest fs1 [r] now2 = Except.ok (fs1, m1) := by
  cases hload : load_manifest fs with
  | error e =>
    simp only [update_manifest, hload] at h
    exact Except.noConfusion h
  | ok existing =>
    simp only [update_manifest, hload] at h
    have hnd := buildByHash_nodup existing.documents
    have hinv : ∀ p ∈ buildByHash existing.documents, keyOf p.2 = some p.1 :=
      fun p hp => (buildByHash_inv _ p hp).1
    have hfixed : ∀ v ∈ mapValues (buildByHash existing.documents), loadFix v = v := by
      intro v hv
      simp only [mapValues] at hv
      obtain ⟨p, hp, hsnd⟩ := List.mem_map.mp hv
      rw [← hsnd]
      exact load_docs_fixed fs existing hload p.2 (buildByHash_inv _ p hp).2
    have hfacts := first_apply_facts (buildByHash existing.documents) r hnd hinv hfixed
    by_cases hcond : (applyRecords (buildByHash existing.documents) [r]).2 = false
        ∧ fileExists fs = true
    · rw [if_pos hcond] at h
      injection h with h'
      have hfs : fs = fs1 := congrArg Prod.fst h'
      have hm : existing = m1 := congrArg Prod.snd h'
      subst hfs
      subst hm
      simp only [update_manifest, hload]
      rw [if_pos hcond]
    · rw [if_neg hcond] at h
      injection h with h'
      have hfs : FileState.stored
          (sortDocs (mapValues (applyRecords (buildByHash existing.documents) [r]).1))
          (some now) = fs1 := congrArg Prod.fst h'
      have hm : (⟨sortDocs (mapValues (applyRecords (buildByHash existing.documents) [r]).1),
          computeStats (sortDocs (mapValues (applyRecords (buildByHash existing.documents) [r]).1)),
          some now⟩ : Manifest) = m1 := congrArg Prod.snd h'
      subst hfs
      subst hm
      have hDfix : (sortDocs (mapValues (applyRecords (buildByHash existing.documents) [r]).1)).map loadFix
          = sortDocs (mapValues (applyRecords (buildByHash existing.documents) [r]).1) := by
        apply map_loadFix_id
        intro d hd
        exact hfacts.2.2.1 d ((sortDocs_perm _).mem_iff.mp hd)
      have hnochange := second_apply_no_change
        (applyRecords (buildByHash existing.documents) [r]).1 r
        hfacts.1 hfacts.2.1 hfacts.2.2.2
      simp only [update_manifest, load_manifest]
      rw [hDfix]
      rw [hnochange]
      rw [if_pos ⟨rfl, rfl⟩]

theorem update_manifest_idempotent_witness :
    update_manifest (FileState.stored [c5rec] (some "T1")) [c5rec] "T2"
      = Except.ok (FileState.stored [c5rec] (some "T1"),
          ⟨[c5rec], computeStats [c5rec], some "T1"⟩) :=
  update_manifest_idempotent FileState.missing
    (FileState.stored [c5rec] (some "T1")) c5rec
    ⟨[c5rec], computeStats [c5rec], some "T1"⟩ "T1" "T2" (by rfl)

lemma applyRecords_eq_foldl (m : List (String × Rec)) (rs : List Rec) :
    applyRecords m rs = List.foldl applyStep (m, false) rs := rfl

lemma applyStep_eq_of_none (acc : List (String × Rec) × Bool) (r : Rec)
    (h : keyOf r = none) : applyStep acc r = acc := by
  simp [applyStep, h]

lemma applyStep_eq_of_some (acc : List (String × Rec) × Bool) (r : Rec) (k : String)
    (h : keyOf r = some k) :
    applyStep acc r =
      if (assocGet acc.1 k).getD emptyRec
          = mergeRecord ((assocGet acc.1 k).getD emptyRec) r then acc
      else (assocSet acc.1 k (mergeRecord ((assocGet acc.1 k).getD emptyRec) r), true) := by
  simp [applyStep, h]

lemma foldl_applyStep_true (rs : List Rec) :
    ∀ m : List (String × Rec), (List.foldl applyStep (m, true) rs).2 = true := by
  induction rs with
  | nil => intro m; rfl
  | cons r rest ih =>
    intro m
    rw [List.foldl_cons]
    cases hk : keyOf r with
    | none => rw [applyStep_eq_of_none _ _ hk]; exact ih m
    | some k =>
      rw [applyStep_eq_of_some _ _ k hk]
      split
      · exact ih m
      · exact ih _

lemma foldl_applyStep_false (rs : List Rec) :
    ∀ m : List (String × Rec), (List.foldl applyStep (m, false) rs).2 = false →
      (List.foldl applyStep (m, false) rs).1 = m ∧
      ∀ r ∈ rs, ∀ k, keyOf r = some k →
        ∃ c, assocGet m k = some c ∧ mergeRecord c r = c := by
  induction rs with
  | nil => intro m _; exact ⟨rfl, by simp⟩
  | cons r rest ih =>
    intro m hfalse
    rw [List.foldl_cons] at hfalse ⊢
    cases hk : keyOf r with
    | none =>
      rw [applyStep_eq_of_none _ _ hk] at hfalse ⊢
      obtain ⟨h1, h2⟩ := ih m hfalse
      refine ⟨h1, fun r' hr' k hkk => ?_⟩
      rcases List.mem_cons.mp hr' with h | h
      · subst h
        rw [hk] at hkk
        exact Option.noConfusion hkk
      · exact h2 r' h k hkk
    | some k =>
      rw [applyStep_eq_of_some _ _ k hk] at hfalse ⊢
      by_cases heq : (assocGet m k).getD emptyRec
          = mergeRecord ((assocGet m k).getD emptyRec) r
      · rw [if_pos heq] at hfalse ⊢
        obtain ⟨h1, h2⟩ := ih m hfalse
        refine ⟨h1, fun r' hr' k' hkk => ?_⟩
        rcases List.mem_cons.mp hr' with h | h
        · subst h
          rw [hk] at hkk
          injection hkk with hkk
          subst hkk
          cases hget : assocGet m k with
          | none =>
            rw [hget] at heq
            simp only [Option.getD_none] at heq
            exact absurd heq.symm (merge_ne_empty emptyRec r')
          | some c =>
            rw [hget] at heq
            simp only [Option.getD_some] at heq
            exact ⟨c, rfl, heq.symm⟩
        · exact h2 r' h k' hkk
      · rw [if_neg heq] at hfalse
        rw [foldl_applyStep_true rest _] at hfalse
        exact Bool.noConfusion hfalse

lemma statusPriority_le_forty (s : String) : statusPriority s ≤ 40 := by
  unfold statusPriority
  split_ifs <;> omega

lemma statusPriority_lt_forty (o : Option String)
    (h : normStatus o ≠ "indexed") : statusPriority (normStatus o) < 40 := by
  have h1 := statusPriority_le_forty (normStatus o)
  rcases Nat.lt_or_ge (statusPriority (normStatus o)) 40 with h2 | h2
  · exact h2
  · have h3 : statusPriority (normStatus o) = 40 := le_antisymm h1 h2
    exact absurd ((statusPriority_eq_forty _).mp h3) h

lemma mergeRecord_prio_mono (c r : Rec) :
    statusPriority (normStatus c.status)
      ≤ statusPriority (normStatus (mergeRecord c r).status) := by
  rw [mergeRecord_status]
  exact mergedStatusVal_mono c r

lemma mergeRecord_prio_ge_new (c r : Rec) :
    statusPriority (normStatus r.status)
      ≤ statusPriority (normStatus (mergeRecord c r).status) := by
  rw [mergeRecord_status]
  exact mergedStatusVal_ge_new c r

lemma mergeRecord_prio_lt_forty (c r : Rec)
    (hc : statusPriority (normStatus c.status) < 40)
    (hr : statusPriority (normStatus r.status) < 40) :
    statusPriority (normStatus (mergeRecord c r).status) < 40 := by
  rw [mergeRecord_status]
  have h := mergedStatusVal_le_max c r
  omega

lemma foldl_applyStep_wf (rs : List Rec) :
    ∀ (m : List (String × Rec)) (b : Bool),
      (m.map Prod.fst).Nodup → (∀ p ∈ m, keyOf p.2 = some p.1) →
      (((List.foldl applyStep (m, b) rs).1.map Prod.fst).Nodup ∧
        ∀ p ∈ (List.foldl applyStep (m, b) rs).1, keyOf p.2 = some p.1) := by
  induction rs with
  | nil => intro m b hnd hinv; exact ⟨hnd, hinv⟩
  | cons r rest ih =>
    intro m b hnd hinv
    rw [List.foldl_cons]
    cases hk : keyOf r with
    | none =>
      rw [applyStep_eq_of_none _ _ hk]
      exact ih m b hnd hinv
    | some k =>
      rw [applyStep_eq_of_some _ _ k hk]
      by_cases heq : (assocGet m k).getD emptyRec
          = mergeRecord ((assocGet m k).getD emptyRec) r
      · rw [if_pos heq]
        exact ih m b hnd hinv
      · rw [if_neg heq]
        have hkm : keyOf (mergeRecord ((assocGet m k).getD emptyRec) r) = some k := by
          apply keyOf_merge _ _ k _ hk
          cases hget : assocGet m k with
          | none => exact Or.inr rfl
          | some c =>
            left
            simp only [Option.getD_some]
            exact hinv (k, c) (mem_of_assocGet _ _ _ hget)
        apply ih
        · exact assocSet_nodup_keys _ _ _ hnd
        · intro p hp
          rcases assocSet_mem_vals _ _ _ p hp with h1 | h1
          · rw [h1]
            exact hkm
          · exact hinv p h1

lemma foldl_applyStep_track (rs : List Rec) :
    ∀ (m : List (String × Rec)) (b : Bool) (k : String) (v : Rec),
      assocGet m k = some v →
      ∃ v1, assocGet (List.foldl applyStep (m, b) rs).1 k = some v1 ∧
        statusPriority (normStatus v.status) ≤ statusPriority (normStatus v1.status) ∧
        ((∀ r ∈ rs, statusPriority (normStatus r.status) < 40) →
          statusPriority (normStatus v.status) < 40 →
          statusPriority (normStatus v1.status) < 40) := by
  induction rs with
  | nil => intro m b k v hget; exact ⟨v, hget, le_refl _, fun _ h => h⟩
  | cons r rest ih =>
    intro m b k v hget
    rw [List.foldl_cons]
    cases hk : keyOf r with
    | none =>
      rw [applyStep_eq_of_none _ _ hk]
      obtain ⟨v1, h1, h2, h3⟩ := ih m b k v hget
      exact ⟨v1, h1, h2, fun hall hv =>
        h3 (fun r' hr' => hall r' (List.mem_cons_of_mem r hr')) hv⟩
    | some k' =>
      rw [applyStep_eq_of_some _ _ k' hk]
      by_cases heq : (assocGet m k').getD emptyRec
          = mergeRecord ((assocGet m k').getD emptyRec) r
      · rw [if_pos heq]
        obtain ⟨v1, h1, h2, h3⟩ := ih m b k v hget
        exact ⟨v1, h1, h2, fun hall hv =>
          h3 (fun r' hr' => hall r' (List.mem_cons_of_mem r hr')) hv⟩
      · rw [if_neg heq]
        by_cases hkk : k' = k
        · subst hkk
          rw [hget] at heq ⊢
          simp only [Option.getD_some] at heq ⊢
          obtain ⟨v1, h1, h2, h3⟩ := ih (assocSet m k' (mergeRecord v r)) true k'
            (mergeRecord v r) (assocGet_set_self _ _ _)
          refine ⟨v1, h1, le_trans (mergeRecord_prio_mono v r) h2, ?_⟩
          intro hall hv
          apply h3 (fun r' hr' => hall r' (List.mem_cons_of_mem r hr'))
          exact mergeRecord_prio_lt_forty v r hv (hall r (List.mem_cons_self r rest))
        · obtain ⟨v1, h1, h2, h3⟩ := ih (assocSet m k'
            (mergeRecord ((assocGet m k').getD emptyRec) r)) true k v
            (by rw [assocGet_set_ne _ _ _ _ hkk]; exact hget)
          exact ⟨v1, h1, h2, fun hall hv =>
            h3 (fun r' hr' => hall r' (List.mem_cons_of_mem r hr')) hv⟩

lemma foldl_applyStep_place (rs : List Rec) :
    ∀ (m : List (String × Rec)) (b : Bool) (r : Rec) (k : String),
      r ∈ rs → keyOf r = some k →
      ∃ v1, assocGet (List.foldl applyStep (m, b) rs).1 k = some v1 ∧
        statusPriority (normStatus r.status) ≤ statusPriority (normStatus v1.status) := by
  induction rs with
  | nil => intro m b r k hr; simp at hr
  | cons r0 rest ih =>
    intro m b r k hr hk
    rw [List.foldl_cons]
    rcases List.mem_cons.mp hr with hcase | hcase
    · subst hcase
      rw [applyStep_eq_of_some _ _ k hk]
      by_cases heq : (assocGet m k).getD emptyRec
          = mergeRecord ((assocGet m k).getD emptyRec) r
      · rw [if_pos heq]
        cases hget : assocGet m k with
        | none =>
          rw [hget] at heq
          simp only [Option.getD_none] at heq
          exact absurd heq.symm (merge_ne_empty emptyRec r)
        | some c =>
          rw [hget] at heq
          simp only [Option.getD_some] at heq
          obtain ⟨v1, h1, h2, _⟩ := foldl_applyStep_track rest m b k c hget
          refine ⟨v1, h1, le_trans ?_ h2⟩
          rw [heq]
          exact mergeRecord_prio_ge_new c r
      · rw [if_neg heq]
        obtain ⟨v1, h1, h2, _⟩ := foldl_applyStep_track rest
          (assocSet m k (mergeRecord ((assocGet m k).getD emptyRec) r)) true k
          (mergeRecord ((assocGet m k).getD emptyRec) r) (assocGet_set_self _ _ _)
        exact ⟨v1, h1, le_trans (mergeRecord_prio_ge_new _ r) h2⟩
    · cases hk0 : keyOf r0 with
      | none =>
        rw [applyStep_eq_of_none _ _ hk0]
        exact ih m b r k hcase hk
      | some k0 =>
        rw [applyStep_eq_of_some _ _ k0 hk0]
        by_cases heq : (assocGet m k0).getD emptyRec
            = mergeRecord ((assocGet m k0).getD emptyRec) r0
        · rw [if_pos heq]
          exact ih m b r k hcase hk
        · rw [if_neg heq]
          exact ih _ true r k hcase hk

lemma update_manifest_membership (fs : FileState) (records : List Rec) (now : String)
    (existing : Manifest) (fs' : FileState) (m : Manifest)
    (hload : load_manifest fs = Except.ok existing)
    (hupd : update_manifest fs records now = Except.ok (fs', m)) :
    (∀ r ∈ records, ∀ k, keyOf r = some k →
      ∃ rec ∈ m.documents, keyOf rec = some k ∧
        statusPriority (normStatus r.status) ≤ statusPriority (normStatus rec.status)) ∧
    (∀ k v0, assocGet (buildByHash existing.documents) k = some v0 →
      (∀ r ∈ records, statusPriority (normStatus r.status) < 40) →
      statusPriority (normStatus v0.status) < 40 →
      ∃ rec ∈ m.documents, keyOf rec = some k ∧
        statusPriority (normStatus rec.status) < 40) := by
  simp only [update_manifest, hload] at hupd
  by_cases hcond : (applyRecords (buildByHash existing.documents) records).2 = false
      ∧ fileExists fs = true
  · rw [if_pos hcond] at hupd
    injection hupd with h'
    have hm : existing = m := congrArg Prod.snd h'
    subst hm
    have hfalse := foldl_applyStep_false records (buildByHash existing.documents)
      (by rw [← applyRecords_eq_foldl]; exact hcond.1)
    constructor
    · intro r hr k hk
      obtain ⟨c, hget, hmerge⟩ := hfalse.2 r hr k hk
      have hinv := buildByHash_inv existing.documents (k, c) (mem_of_assocGet _ _ _ hget)
      refine ⟨c, hinv.2, hinv.1, ?_⟩
      have h2 := mergeRecord_prio_ge_new c r
      rw [hmerge] at h2
      exact h2
    · intro k v0 hget _ hv0
      have hinv := buildByHash_inv existing.documents (k, v0) (mem_of_assocGet _ _ _ hget)
      exact ⟨v0, hinv.2, hinv.1, hv0⟩
  · rw [if_neg hcond] at hupd
    injection hupd with h'
    have hm : (⟨sortDocs (mapValues (applyRecords (buildByHash existing.documents) records).1),
        computeStats (sortDocs (mapValues (applyRecords (buildByHash existing.documents) records).1)),
        some now⟩ : Manifest) = m := congrArg Prod.snd h'
    have hwf := foldl_applyStep_wf records (buildByHash existing.documents) false
      (buildByHash_nodup _) (fun p hp => (buildByHash_inv _ p hp).1)
    constructor
    · intro r hr k hk
      obtain ⟨v1, h1, h2⟩ := foldl_applyStep_place records
        (buildByHash existing.documents) false r k hr hk
      have hmem := mem_of_assocGet _ _ _ h1
      refine ⟨v1, ?_, hwf.2 (k, v1) hmem, h2⟩
      rw [← hm]
      apply (sortDocs_perm _).mem_iff.mpr
      rw [applyRecords_eq_foldl]
      exact List.mem_map.mpr ⟨(k, v1), hmem, rfl⟩
    · intro k v0 hget hall hv0
      obtain ⟨v1, h1, h2, h3⟩ := foldl_applyStep_track records
        (buildByHash existing.documents) false k v0 hget
      have hmem := mem_of_assocGet _ _ _ h1
      refine ⟨v1, ?_, hwf.2 (k, v1) hmem, h3 hall hv0⟩
      rw [← hm]
      apply (sortDocs_perm _).mem_iff.mpr
      rw [applyRecords_eq_foldl]
      exact List.mem_map.mpr ⟨(k, v1), hmem, rfl⟩

lemma pending_records_status (disk : Disk) (docs : List CrawlDoc) (now : String) :
    ∀ r ∈ pending_records disk docs now, r.status = some "not_indexed" := by
  intro r hr
  simp only [pending_records] at hr
  obtain ⟨d, _, hr'⟩ := List.mem_filterMap.mp hr
  cases hb : build_document_metadata disk d.path d.url d.source_page d.downloaded_at now with
  | none => rw [hb] at hr'; exact Option.noConfusion hr'
  | some meta =>
    rw [hb] at hr'
    simp only [Option.map_some'] at hr'
    injection hr' with hr'
    rw [← hr']

lemma pending_records_mem (disk : Disk) (docs : List CrawlDoc) (now : String)
    (d : CrawlDoc) (g : FileInfo) (hd : d ∈ docs) (hg : disk d.path = some g)
    (hne : g.sha256 ≠ "") :
    ∃ r ∈ pending_records disk docs now,
      keyOf r = some g.sha256 ∧ r.status = some "not_indexed" := by
  cases hb : build_document_metadata disk d.path d.url d.source_page d.downloaded_at now with
  | none => simp [build_document_metadata, hg] at hb
  | some meta =>
    have hmm : { meta with indexed := some false, status := some "not_indexed" }
        ∈ pending_records disk docs now := by
      simp only [pending_records]
      exact List.mem_filterMap.mpr ⟨d, hd, by rw [hb]; rfl⟩
    have hmeta_eq : meta.sha256 = some g.sha256 := by
      simp only [build_document_metadata, hg] at hb
      injection hb with hb
      rw [← hb]
    refine ⟨_, hmm, ?_, rfl⟩
    simp [keyOf, truthyStr, hmeta_eq, hne]

lemma normStatus_eq_indexed (o : Option String)
    (h : normStatus o = "indexed") : o = some "indexed" := by
  cases o with
  | none => simp [normStatus] at h
  | some s =>
    simp only [normStatus] at h
    split at h
    · exact absurd h (by decide)
    · rw [h]

lemma get_buildByHash_of_nodup (docs : List Rec)
    (hsome : ∀ d ∈ docs, (keyOf d).isSome = true)
    (hnd : (docs.filterMap keyOf).Nodup) (d : Rec) (k : String)
    (hd : d ∈ docs) (hk : keyOf d = some k) :
    assocGet (buildByHash docs) k = some d := by
  have hbuild : buildByHash docs = docs.map (fun d => ((keyOf d).getD "", d)) := by
    have h := buildByHash_all_keys docs [] hsome (by simpa using hnd)
    simpa [buildByHash] using h
  have hpair : (k, d) ∈ buildByHash docs := by
    rw [hbuild]
    exact List.mem_map.mpr ⟨d, hd, by rw [hk]; rfl⟩
  have hndB : ((buildByHash docs).map Prod.fst).Nodup := by
    rw [hbuild]
    simp only [List.map_map]
    have heq : (docs.map ((fun p => Prod.fst p) ∘ (fun d => ((keyOf d).getD "", d))))
        = docs.filterMap keyOf := by
      rw [filterMap_eq_map_getD _ hsome]
      rfl
    rw [heq]
    exact hnd
  exact assocGet_of_mem_nodup _ _ _ hndB hpair

lemma update_manifest_ok (fs : FileState) (records : List Rec) (now : String)
    (existing : Manifest) (hload : load_manifest fs = Except.ok existing) :
    ∃ fs' m, update_manifest fs records now = Except.ok (fs', m) := by
  simp only [update_manifest, hload]
  split
  · exact ⟨fs, existing, rfl⟩
  · exact ⟨_, _, rfl⟩

lemma scrape_engine_down (disk : Disk) (ext : String → String) (es : EsState)
    (fs : FileState) (start : String) (downloaded : List CrawlDoc) (now : String)
    (loaded : Manifest) (hload : load_manifest fs = Except.ok loaded) :
    scrape_index_phase false disk ext es fs start downloaded now =
      match update_manifest fs (pending_records disk downloaded now) now with
      | .error e => .error e
      | .ok (fs', manifest) =>
        .ok (fs', es, .deferred esUnavailableMsg manifest 502) := by
  simp only [scrape_index_phase, hload]
  rfl

/-- C3 amended: when the search engine is unreachable during the indexing
phase, `start_scraping` takes the deferred path: it returns a distinct
deferred-error outcome — the fixed explanatory message, the updated
manifest, and HTTP status 502, structurally distinct from the success
outcome — after recording every newly downloaded file (whose path exists on
disk and has a nonempty content hash) into the Manifest under its content
hash with a status of rank at least `not_indexed` (exactly `not_indexed`
unless the hash already carried a higher status), and every previously
pending document stays pending: its key is still present with a status
other than `indexed`.  The outcome does not carry the count of files
downloaded in this run. -/
theorem engine_down_deferred_recovery
    (disk : Disk) (ext : String → String) (es : EsState) (fs : FileState)
    (start now : String) (downloaded : List CrawlDoc) (loaded : Manifest)
    (hload : load_manifest fs = Except.ok loaded)
    (hkeys : ∀ d ∈ loaded.documents, (keyOf d).isSome = true)
    (hnd : (loaded.documents.filterMap keyOf).Nodup)
    (hdl : ∀ d ∈ downloaded, ∃ g, disk d.path = some g ∧ g.sha256 ≠ "") :
    ∃ fs' m, scrape_index_phase false disk ext es fs start downloaded now
        = Except.ok (fs', es, Outcome.deferred esUnavailableMsg m 502)
      ∧ (∀ d ∈ downloaded, ∀ g, disk d.path = some g →
          ∃ rec ∈ m.documents, keyOf rec = some g.sha256 ∧
            10 ≤ statusPriority (normStatus rec.status))
      ∧ (∀ r0 ∈ pending_documents loaded, ∃ rec ∈ m.documents,
          keyOf rec = keyOf r0 ∧ normStatus rec.status ≠ "indexed") := by
  obtain ⟨fs', m, hupd⟩ :=
    update_manifest_ok fs (pending_records disk downloaded now) now loaded hload
  have hmem := update_manifest_membership fs (pending_records disk downloaded now)
    now loaded fs' m hload hupd
  refine ⟨fs', m, ?_, ?_, ?_⟩
  · rw [scrape_engine_down disk ext es fs start downloaded now loaded hload, hupd]
  · intro d hd g hg
    obtain ⟨g', hg', hne⟩ := hdl d hd
    rw [hg] at hg'
    injection hg' with hgg
    subst hgg
    obtain ⟨r, hr, hkey, hstatus⟩ :=
      pending_records_mem disk downloaded now d g hd hg hne
    obtain ⟨rec, hrecmem, hreckey, hprio⟩ := hmem.1 r hr g.sha256 hkey
    refine ⟨rec, hrecmem, hreckey, ?_⟩
    rw [hstatus] at hprio
    have h10 : statusPriority (normStatus (some "not_indexed")) = 10 := by decide
    rw [h10] at hprio
    exact hprio
  · intro r0 hr0
    simp only [pending_documents, List.mem_filter] at hr0
    obtain ⟨hr0mem, hr0ne⟩ := hr0
    have hr0ne' : r0.status ≠ some "indexed" := by
      intro hc
      rw [hc] at hr0ne
      simp at hr0ne
    obtain ⟨k0, hk0⟩ := Option.isSome_iff_exists.mp (hkeys r0 hr0mem)
    have hget := get_buildByHash_of_nodup loaded.documents hkeys hnd r0 k0 hr0mem hk0
    have hprio0 : statusPriority (normStatus r0.status) < 40 := by
      apply statusPriority_lt_forty
      intro hc
      exact hr0ne' (normStatus_eq_indexed _ hc)
    have hall : ∀ r ∈ pending_records disk downloaded now,
        statusPriority (normStatus r.status) < 40 := by
      intro r hr
      rw [pending_records_status disk downloaded now r hr]
      decide
    obtain ⟨rec, hrecmem, hreckey, hreclt⟩ := hmem.2 k0 r0 hget hall hprio0
    refine ⟨rec, hrecmem, by rw [hreckey, hk0], ?_⟩
    intro hc
    have h40 : statusPriority (normStatus rec.status) = 40 := by
      rw [hc]
      decide
    omega

/-- C3 counterexample: the claim fails on the code in two ways.  (1) A file
downloaded in this run whose content hash is already recorded as `indexed`
is not recorded with status `not_indexed` — the monotonic merge keeps
`indexed`, so the manifest after the deferred path contains no
`not_indexed` record at all in this scenario.  (2) The deferred-error
outcome does not report how many files were downloaded: a run that
downloads the same file twice produces an outcome identical to the run
that downloads it once, while the counts differ. -/
theorem deferred_outcome_counterexample :
    scrape_index_phase false c3disk (fun _ => "") [] c3fs "http://a.com/" c3dl "T2"
      = Except.ok (FileState.stored [c3merged] (some "T2"), [],
          Outcome.deferred esUnavailableMsg
            ⟨[c3merged], computeStats [c3merged], some "T2"⟩ 502)
    ∧ (∀ rec ∈ [c3merged], rec.status ≠ some "not_indexed")
    ∧ scrape_index_phase false c3disk (fun _ => "") [] FileState.missing "u" c3dl "T2"
      = scrape_index_phase false c3disk (fun _ => "") [] FileState.missing "u"
          (c3dl ++ c3dl) "T2"
    ∧ c3dl.length ≠ (c3dl ++ c3dl).length := by
  refine ⟨by rfl, by decide, by rfl, by decide⟩

theorem engine_down_deferred_recovery_witness :
    ∃ fs' m, scrape_index_phase false c3disk (fun _ => "") [] c3fs "s" c3dl "T2"
        = Except.ok (fs', [], Outcome.deferred esUnavailableMsg m 502)
      ∧ (∀ d ∈ c3dl, ∀ g, c3disk d.path = some g →
          ∃ rec ∈ m.documents, keyOf rec = some g.sha256 ∧
            10 ≤ statusPriority (normStatus rec.status))
      ∧ (∀ r0 ∈ pending_documents ⟨[c3prev], computeStats [c3prev], some "T0"⟩,
          ∃ rec ∈ m.documents, keyOf rec = keyOf r0 ∧
            normStatus rec.status ≠ "indexed") := by
  apply engine_down_deferred_recovery c3disk (fun _ => "") [] c3fs "s" "T2" c3dl
    ⟨[c3prev], computeStats [c3prev], some "T0"⟩ (by rfl) (by decide) (by decide)
  intro d hd
  have hd' : d = (⟨"/dl/a.pdf", "http://a.com/a.pdf", some "http://a.com/",
      some "T1"⟩ : CrawlDoc) := by
    simpa [c3dl] using hd
  subst hd'
  exact ⟨⟨"aa11", 5, "a.pdf", "/abs/a.pdf"⟩, by decide, by decide⟩
